import Mathlib

set_option maxHeartbeats 1000000

namespace Puml

/- Shallow embedding of `puml_to_code.py`, the PlantUML state-machine compiler.
   Lines of text are modelled as lists of characters; regex-based line matchers
   are translated into deterministic functions computing the same match results. -/

/-- Characters matched by the Python regex class `\w` (ASCII range). -/
def isWordChar (c : Char) : Bool := c.isAlphanum || c == '_'

/-- Characters treated as whitespace by Python's `\s` and `str.strip`. -/
def isPySpace (c : Char) : Bool :=
  c == ' ' || c == '\t' || c == '\n' || c == '\r' || c == '\x0b' || c == '\x0c'

/-- The single-quote character stripped by `cleanup_lines`. -/
def quoteChar : Char := Char.ofNat 39

/-- The `#` character starting a `#\w+` run stripped by `cleanup_lines`. -/
def hashChar : Char := Char.ofNat 35

/-- The opening-brace character of a nested state block. -/
def openBraceChar : Char := Char.ofNat 123

/-- The closing-brace character of a nested state block. -/
def closeBraceChar : Char := Char.ofNat 125

/-- `str.strip()`: drop whitespace from both ends. -/
def pyStrip (l : List Char) : List Char :=
  ((l.dropWhile isPySpace).reverse.dropWhile isPySpace).reverse

/-- Does the list start with a word character? -/
def headIsWord : List Char → Bool
  | c :: _ => isWordChar c
  | [] => false

/-- One-pass scanner implementing `re.sub(r'#\w+', '', text)`: when `skipping`,
    the scanner is inside a word run being deleted; a `#` directly followed by a
    word character starts (or restarts) a deletion; every other character is kept. -/
def removeHashAux : Bool → List Char → List Char
  | _, [] => []
  | skipping, c :: rest =>
    if skipping && isWordChar c then removeHashAux true rest
    else if c = hashChar && headIsWord rest then removeHashAux true rest
    else c :: removeHashAux false rest

/-- `re.sub(r'#\w+', '', text)`: delete every occurrence of `#` followed by a
    nonempty run of word characters; a `#` not followed by a word character is kept. -/
def removeHashRuns (l : List Char) : List Char := removeHashAux false l

/-- `text[:text.index("'")] if "'" in text else text`: keep everything before the
    first quote character. -/
def cutQuote (l : List Char) : List Char := l.takeWhile (fun c => c ≠ quoteChar)

/-- The prefixes that make `cleanup_lines` blank a line wholesale. -/
def directiveStart (l : List Char) : Bool :=
  ['@'].isPrefixOf l || "title ".toList.isPrefixOf l ||
  "hide empty ".toList.isPrefixOf l || "note ".toList.isPrefixOf l

/-- A line of a `.puml` file: source name, 1-based number, original and cleaned text. -/
structure PLine where
  filename : String
  line_no : Nat
  orig_text : List Char
  text : List Char
deriving Repr, DecidableEq

/-- The per-line transformation applied by `cleanup_lines`. -/
def cleanupText (text : List Char) : List Char :=
  if directiveStart text then [] else pyStrip (cutQuote (removeHashRuns text))

/-- `cleanup_lines`: blank directive lines, strip `#\w+` runs and quote suffixes,
    trim, and drop lines that became empty. -/
def cleanup_lines (lines : List PLine) : List PLine :=
  lines.filterMap fun l =>
    let t := cleanupText l.text
    if t.isEmpty then none else some { l with text := t }

/-- Build a `PLine` from a raw string, as `read_puml_file` does. -/
def mkLine (filename : String) (n : Nat) (s : String) : PLine :=
  ⟨filename, n, s.toList, s.toList⟩

/-- Build the numbered line list of a whole input, as `read_puml_file` does. -/
def mkLines (ss : List String) : List PLine :=
  ss.enum.map fun p => mkLine "test.puml" (p.1 + 1) p.2

/- ===== Line matchers (translations of the `re.fullmatch` patterns) ===== -/

/-- Consume `-{1,2}>`: a `->` or `-->` arrow. -/
def matchArrow : List Char → Option (List Char)
  | '-' :: '-' :: '>' :: rest => some rest
  | '-' :: '>' :: rest => some rest
  | _ => none

/-- Does the list start with a whitespace character? -/
def headIsSpace : List Char → Bool
  | c :: _ => isPySpace c
  | [] => false

/-- `re.fullmatch(r'^\[\*\]\s+-{1,2}>\s+(\w+)\s*(.*)', text)`: an initial-transition
    line; returns the target name and the trailing text after it. -/
def initialLineMatch (l : List Char) : Option (String × List Char) :=
  match l with
  | '[' :: '*' :: ']' :: rest =>
    if headIsSpace rest then
      match matchArrow (rest.dropWhile isPySpace) with
      | none => none
      | some r1 =>
        if headIsSpace r1 then
          let r2 := r1.dropWhile isPySpace
          let name := r2.takeWhile isWordChar
          if name.isEmpty then none
          else some (name.asString, (r2.dropWhile isWordChar).dropWhile isPySpace)
        else none
    else none
  | _ => none

/-- Split the text following the colon of a state-declaration line into the inline
    clause and the optional trailing open brace (`(.*?)\s*(\{?)$`). -/
def splitClauseBrace (l : List Char) : List Char × Bool :=
  match l.reverse with
  | c :: rest => if c = openBraceChar then ((pyStrip rest.reverse), true) else (pyStrip l, false)
  | [] => ([], false)

/-- `re.fullmatch(r'^(state\s+)?(\w+)\s*(:\s*(.*?)\s*)?(\{?)$', text)`: a state
    declaration line; returns the state name, the optional inline clause and
    whether the line opens a nested block. -/
def stateLineMatch (l : List Char) : Option (String × Option (List Char) × Bool) :=
  -- optional `state\s+` prefix (kept only when a word character follows it)
  let l1 :=
    match l with
    | 's' :: 't' :: 'a' :: 't' :: 'e' :: rest =>
      if headIsSpace rest then
        let r := rest.dropWhile isPySpace
        if headIsWord r then r else l
      else l
    | _ => l
  let name := l1.takeWhile isWordChar
  if name.isEmpty then none
  else
    let r2 := (l1.dropWhile isWordChar).dropWhile isPySpace
    match r2 with
    | [] => some (name.asString, none, false)
    | c :: rest =>
      if c = openBraceChar then
        if rest.isEmpty then some (name.asString, none, true) else none
      else if c = ':' then
        let (clause, brace) := splitClauseBrace (rest.dropWhile isPySpace)
        some (name.asString, some clause, brace)
      else none

/-- `re.fullmatch(r'^(\w+)\s+-{1,2}>\s(\w+)\s*(:\s*(.*?)\s*)?', text)`: an
    inter-state transition line; returns source, destination and the optional
    clause text (note the single `\s` required after the arrow). -/
def transLineMatch (l : List Char) : Option (String × String × Option (List Char)) :=
  let fromName := l.takeWhile isWordChar
  if fromName.isEmpty then none
  else
    let r1 := l.dropWhile isWordChar
    if headIsSpace r1 then
      match matchArrow (r1.dropWhile isPySpace) with
      | none => none
      | some r2 =>
        match r2 with
        | c :: r3 =>
          if isPySpace c then
            let toName := r3.takeWhile isWordChar
            if toName.isEmpty then none
            else
              let r4 := (r3.dropWhile isWordChar).dropWhile isPySpace
              match r4 with
              | [] => some (fromName.asString, toName.asString, none)
              | ':' :: rest => some (fromName.asString, toName.asString, some (pyStrip rest))
              | _ => none
          else none
        | [] => none
      else none

/- ===== The transition-clause parser (`parse_transition_line`) ===== -/

/-- `trans_txt.replace('\\n', '')`: delete every literal backslash-n pair. -/
def removeEscapedNewlines : List Char → List Char
  | '\\' :: 'n' :: rest => removeEscapedNewlines rest
  | c :: rest => c :: removeEscapedNewlines rest
  | [] => []

/-- All ways to split a list at a `]` character: pairs of (text before, text after),
    in left-to-right order of the `]` occurrence. -/
def guardCandidates : List Char → List (List Char × List Char)
  | [] => []
  | c :: rest =>
    if c = ']' then ([], rest) :: (guardCandidates rest).map (fun p => (c :: p.1, p.2))
    else (guardCandidates rest).map (fun p => (c :: p.1, p.2))

/-- Parse the optional `(/(.*))?` action suffix: nothing, or `/` followed by the raw
    action text split on `/` with blank segments dropped. -/
def parseActionsPart (l : List Char) : Option (List String) :=
  match l with
  | [] => some []
  | '/' :: rest =>
    some (((rest.splitOn '/').map pyStrip).filter (fun s => ¬ s.isEmpty) |>.map List.asString)
  | _ => none

/-- Try the guard-bracket candidates in order (the lazy `(.*?)\s*\]` match): the
    first `]` after which the remainder parses as an action suffix wins. -/
def tryGuardCandidates : List (List Char × List Char) → Option (String × List String)
  | [] => none
  | (pre, post) :: rest =>
    match parseActionsPart (post.dropWhile isPySpace) with
    | some acts => some ((pyStrip pre).asString, acts)
    | none => tryGuardCandidates rest

/-- `re.fullmatch(r'^(\w+)\s*(\[\s*(.*?)\s*\]\s*)?(/(.*))?', trans_txt)` applied after
    removing escaped newlines: event name, optional guard text, action list. An
    empty guard bracket yields no guard (`guard = None if not guard_code else ...`). -/
def parse_transition_clause (txt : List Char) : Option (String × Option String × List String) :=
  let t := removeEscapedNewlines txt
  let ev := t.takeWhile isWordChar
  if ev.isEmpty then none
  else
    let r1 := (t.dropWhile isWordChar).dropWhile isPySpace
    match r1 with
    | '[' :: rest =>
      match tryGuardCandidates (guardCandidates rest) with
      | some (g, acts) => some (ev.asString, if g.isEmpty then none else some g, acts)
      | none => none
    | _ =>
      match parseActionsPart r1 with
      | some acts => some (ev.asString, none, acts)
      | none => none

/- ===== The FSM data model ===== -/

/-- A transition: event name, optional guard code, source and destination state
    names, and the ordered action codes. -/
structure Transition where
  event : String
  guard : Option String
  from_state : String
  to_state : String
  actions : List String
deriving Repr, DecidableEq

/-- A state: name, optional parent name, child names in insertion order, the
    initial flag, and the four transition collections. -/
structure FsmState where
  name : String
  parent_state : Option String
  child_states : List String
  is_initial_state : Bool
  out_transitions : List Transition
  int_transitions : List Transition
  entry_transitions : List Transition
  exit_transitions : List Transition
deriving Repr, DecidableEq

/-- The state dictionary, in insertion order, keyed by state name. -/
abbrev StateDict := List (String × FsmState)

/-- Name lookup in the state dictionary. -/
def lookupState (sd : StateDict) (n : String) : Option FsmState := sd.lookup n

/-- Replace the entry for a key in place (Python dict update keeps the position). -/
def updateState (sd : StateDict) (n : String) (st : FsmState) : StateDict :=
  sd.map fun p => if p.1 = n then (p.1, st) else p

/-- The compile-time failures (Python `assert` messages), as an error type. -/
inductive PErr where
  | duplicateInitialTransition (name : String)
  | malformedInitialTransition
  | unmatchedCloseBrace
  | invalidTransitionClause
  | missingTransitionEvent
  | undefinedState (name : String)
  | undefinedInitialTarget (name : String)
  | noInitialState
  | multipleInitialStates
  | noInitialChildState (name : String)
  | multipleInitialChildStates (name : String)
  | unparsableLines
deriving Repr, DecidableEq

/- ===== parse_initial_state_transitions ===== -/

/-- Loop body of `parse_initial_state_transitions`, threading the collected
    initial-state names and the untouched lines. -/
def parseInitialsGo : List PLine → List (String × PLine) → List PLine →
    Except PErr (List (String × PLine) × List PLine)
  | [], inits, rem => .ok (inits, rem)
  | l :: rest, inits, rem =>
    match initialLineMatch l.text with
    | none => parseInitialsGo rest inits (rem ++ [l])
    | some (name, trailing) =>
      if (inits.lookup name).isSome then .error (.duplicateInitialTransition name)
      else if ¬ trailing.isEmpty then .error .malformedInitialTransition
      else parseInitialsGo rest (inits ++ [(name, l)]) rem

/-- `parse_initial_state_transitions`: extract all `[*] --> Name` lines. -/
def parse_initial_state_transitions (lines : List PLine) :
    Except PErr (List (String × PLine) × List PLine) :=
  parseInitialsGo lines [] []

/- ===== parse_states ===== -/

/-- File an inline transition into the entry, exit or internal collection of a
    state, keyed on its event name. -/
def fileInlineTransition (st : FsmState) (tr : Transition) : FsmState :=
  if tr.event = "entry" then { st with entry_transitions := st.entry_transitions ++ [tr] }
  else if tr.event = "exit" then { st with exit_transitions := st.exit_transitions ++ [tr] }
  else { st with int_transitions := st.int_transitions ++ [tr] }

/-- The accumulator of the `parse_states` loop: dictionary so far, open-block
    stack (top first, seeded with the `none` sentinel), passed-through lines. -/
structure PSAcc where
  states : StateDict
  stack : List (Option String)
  remaining : List PLine
deriving Repr, DecidableEq

/-- One iteration of the `parse_states` loop. -/
def parseStatesStep (initNames : List String) (acc : PSAcc) (line : PLine) :
    Except PErr PSAcc :=
  if line.text = [closeBraceChar] then
    match acc.stack with
    | _ :: rest => if rest.isEmpty then .error .unmatchedCloseBrace else .ok { acc with stack := rest }
    | [] => .error .unmatchedCloseBrace
  else
    match stateLineMatch line.text with
    | none => .ok { acc with remaining := acc.remaining ++ [line] }
    | some (name, clauseOpt, openBrace) =>
      let parent : Option String := acc.stack.headD none
      let states1 :=
        match lookupState acc.states name with
        | some _ => acc.states
        | none => acc.states ++
            [(name, ⟨name, parent, [], initNames.contains name, [], [], [], []⟩)]
      let states2 :=
        match parent with
        | none => states1
        | some p =>
          match lookupState states1 p with
          | none => states1
          | some pst =>
            if pst.child_states.contains name then states1
            else updateState states1 p { pst with child_states := pst.child_states ++ [name] }
      match clauseOpt with
      | none =>
        .ok { acc with states := states2,
                       stack := if openBrace then some name :: acc.stack else acc.stack }
      | some clause =>
        if clause.isEmpty then
          .ok { acc with states := states2,
                         stack := if openBrace then some name :: acc.stack else acc.stack }
        else
          match parse_transition_clause clause with
          | none => .error .invalidTransitionClause
          | some (ev, g, acts) =>
            match lookupState states2 name with
            | none => .error .invalidTransitionClause
            | some st =>
              let states3 := updateState states2 name
                (fileInlineTransition st ⟨ev, g, name, name, acts⟩)
              .ok { acc with states := states3,
                             stack := if openBrace then some name :: acc.stack else acc.stack }

/-- `parse_states`: fold the loop body over the lines, starting from the empty
    dictionary and the sentinel stack; no end-of-input stack check is performed. -/
def parse_states (lines : List PLine) (initNames : List String) :
    Except PErr (StateDict × List PLine) := do
  let acc ← lines.foldlM (parseStatesStep initNames) ⟨[], [none], []⟩
  .ok (acc.states, acc.remaining)

/- ===== the validators ===== -/

/-- `check_initial_states_exist`: every initial-transition target must be declared. -/
def check_initial_states_exist (inits : List (String × PLine)) (states : StateDict) :
    Except PErr Unit :=
  match inits.find? (fun p => (lookupState states p.1).isNone) with
  | some p => .error (.undefinedInitialTarget p.1)
  | none => .ok ()

/-- Names of the top-level states flagged initial, in dictionary order. -/
def initialRootNames (sd : StateDict) : List String :=
  ((sd.map Prod.snd).filter (fun x => x.parent_state.isNone && x.is_initial_state)).map (·.name)

/-- Names of the children of `st` flagged initial, in child order. -/
def initialChildNames (sd : StateDict) (st : FsmState) : List String :=
  ((st.child_states.filterMap (lookupState sd)).filter (·.is_initial_state)).map (·.name)

/-- The per-composite-state part of `check_states`. -/
def checkCompositeList (sd : StateDict) : List FsmState → Except PErr Unit
  | [] => .ok ()
  | st :: rest =>
    if st.child_states.isEmpty then checkCompositeList sd rest
    else
      let names := initialChildNames sd st
      if names.isEmpty then .error (.noInitialChildState st.name)
      else if names.length ≠ 1 then .error (.multipleInitialChildStates st.name)
      else checkCompositeList sd rest

/-- `check_states`: exactly one initial top-level state, and exactly one initial
    child inside every composite state. -/
def check_states (sd : StateDict) : Except PErr Unit :=
  let roots := initialRootNames sd
  if roots.isEmpty then .error .noInitialState
  else if roots.length ≠ 1 then .error .multipleInitialStates
  else checkCompositeList sd (sd.map Prod.snd)

/- ===== parse_transitions ===== -/

/-- Loop body of `parse_transitions`, threading the dictionary and the
    untouched lines. -/
def parseTransitionsGo : StateDict → List PLine → List PLine →
    Except PErr (StateDict × List PLine)
  | sd, [], rem => .ok (sd, rem)
  | sd, l :: rest, rem =>
    match transLineMatch l.text with
    | none => parseTransitionsGo sd rest (rem ++ [l])
    | some (f, t, clauseOpt) =>
      match clauseOpt with
      | none => .error .missingTransitionEvent
      | some clause =>
        if clause.isEmpty then .error .missingTransitionEvent
        else if (lookupState sd f).isNone then .error (.undefinedState f)
        else if (lookupState sd t).isNone then .error (.undefinedState t)
        else
          match parse_transition_clause clause with
          | none => .error .invalidTransitionClause
          | some (ev, g, acts) =>
            match lookupState sd f with
            | none => .error (.undefinedState f)
            | some fs =>
              parseTransitionsGo
                (updateState sd f
                  { fs with out_transitions := fs.out_transitions ++ [⟨ev, g, f, t, acts⟩] })
                rest rem

/-- `parse_transitions`: link every `From --> To : clause` line into the source
    state's outgoing collection. -/
def parse_transitions (states : StateDict) (lines : List PLine) :
    Except PErr (StateDict × List PLine) :=
  parseTransitionsGo states lines []

/-- `parse_puml_file` minus the file I/O: the whole front-end pipeline on the raw
    line list of one diagram. -/
def parse_puml_lines (rawLines : List PLine) : Except PErr StateDict := do
  let lines := cleanup_lines rawLines
  let (inits, lines) ← parse_initial_state_transitions lines
  let (states, lines) ← parse_states lines (inits.map Prod.fst)
  check_initial_states_exist inits states
  check_states states
  let (states, lines) ← parse_transitions states lines
  if lines.isEmpty then .ok states else .error .unparsableLines

/- ===== Code generation =====
   The generated C text is modelled as abstract statement lists: every `code += ...`
   of the Python becomes one constructor. Statements inside a fired transition's
   brace block are `BStmt`; top-level statements of a dispatch case are `CStmt`. -/

/-- A statement inside the brace block emitted for one outgoing transition. -/
inductive BStmt where
  | exitCall (st : String)
  | actionBlock (g : Option String) (acts : List String)
  | entryCall (st : String)
  | assign (st : String)
  | brk
deriving Repr, DecidableEq

/-- A top-level statement of the dispatch case for one (event, state) pair. -/
inductive CStmt where
  | commentInt (event : String)
  | commentTrans (t : Transition)
  | actionBlock (g : Option String) (acts : List String)
  | transBlock (g : Option String) (body : List BStmt)
deriving Repr, DecidableEq

/-- `makeTransitionsActionCode`: for each transition with a nonempty action list,
    an optionally guarded action block; transitions without actions emit nothing. -/
def makeTransitionsActionCode (ts : List Transition) : List (Option String × List String) :=
  ts.filterMap fun t => if t.actions.isEmpty then none else some (t.guard, t.actions)

/-- The `states_exited` walk: from the current leaf up to the first occurrence of
    `target`, following parent links (`while states_exited[-1] is not state`). -/
def exitWalk (sd : StateDict) (target : String) : Nat → String → Option (List String)
  | 0, _ => none
  | fuel + 1, cur =>
    if cur = target then some [cur]
    else do
      let st ← lookupState sd cur
      let p ← st.parent_state
      let rest ← exitWalk sd target fuel p
      some (cur :: rest)

/-- The upward half of the `states_entered` walk: prepend ancestors of the
    destination while the head's parent is neither the declaring level nor `None`. -/
def entryUp (sd : StateDict) (lvl : String) : Nat → String → Option (List String)
  | 0, _ => none
  | fuel + 1, cur =>
    match lookupState sd cur with
    | none => none
    | some st =>
      match st.parent_state with
      | none => some [cur]
      | some p =>
        if p = lvl then some [cur]
        else (entryUp sd lvl fuel p).map (· ++ [cur])

/-- The first child (in child order) flagged initial, as `[x for x in children if
    x.is_initial_state][0]` computes it. -/
def firstInitialChild (sd : StateDict) (children : List String) : Option String :=
  children.find? fun n => ((lookupState sd n).map (·.is_initial_state)).getD false

/-- The downward half of the `states_entered` walk: keep appending the first
    initial child while the last entered state has children. -/
def entryDescend (sd : StateDict) : Nat → String → Option (List String)
  | 0, _ => none
  | fuel + 1, cur => do
    let st ← lookupState sd cur
    if st.child_states.isEmpty then some []
    else do
      let c ← firstInitialChild sd st.child_states
      (entryDescend sd fuel c).map (c :: ·)

/-- The brace-block body emitted for one firing outgoing transition: exit calls,
    the transition's own action block, entry calls, the new-state assignment and
    the `break`. -/
def outTransCode (sd : StateDict) (fuel : Nat) (current lvlSt : FsmState)
    (t : Transition) : Option (List BStmt) := do
  let exited0 ← exitWalk sd lvlSt.name fuel current.name
  let exited := exited0 ++ (match lvlSt.parent_state with | some p => [p] | none => [])
  let up ← entryUp sd lvlSt.name fuel t.to_state
  let down ← entryDescend sd fuel t.to_state
  let entered := up ++ down
  some (exited.map .exitCall
        ++ (makeTransitionsActionCode [t]).map (fun p => BStmt.actionBlock p.1 p.2)
        ++ entered.map .entryCall
        ++ [.assign (entered.getLastD t.to_state), .brk])

/-- The statements emitted for one candidate outgoing transition: its comment and
    its optionally guarded brace block. -/
def outTransBlock (sd : StateDict) (fuel : Nat) (current lvlSt : FsmState)
    (t : Transition) : Option (List CStmt) :=
  (outTransCode sd fuel current lvlSt t).map fun body =>
    [.commentTrans t, .transBlock t.guard body]

/-- The `for trans in out_trans` loop: concatenate the per-candidate statements. -/
def outBranchCode (sd : StateDict) (fuel : Nat) (current lvlSt : FsmState)
    (ts : List Transition) : Option (List CStmt) :=
  (ts.mapM (outTransBlock sd fuel current lvlSt)).map List.flatten

/-- The `while state:` bubbling loop of `makePostEventStateSwitchCaseCode`: at each
    level, internal transitions matching the event win; otherwise matching outgoing
    transitions are emitted; otherwise move to the parent. -/
def bubbleGo (sd : StateDict) (event_name : String) (current : FsmState) :
    Nat → Option FsmState → Option (List CStmt)
  | _, none => some []
  | 0, some _ => none
  | fuel + 1, some st =>
    let int_trans := st.int_transitions.filter (fun t => t.event == event_name)
    if int_trans.isEmpty then
      let out_trans := st.out_transitions.filter (fun t => t.event == event_name)
      if out_trans.isEmpty then
        bubbleGo sd event_name current fuel (st.parent_state.bind (lookupState sd))
      else
        outBranchCode sd fuel current st out_trans
    else
      some (.commentInt event_name ::
        (makeTransitionsActionCode int_trans).map (fun p => CStmt.actionBlock p.1 p.2))

/-- `makePostEventStateSwitchCaseCode`: the dispatch case for one (event, state)
    pair, obtained by bubbling up from the current state. -/
def makePostEventStateSwitchCaseCode (sd : StateDict) (fuel : Nat)
    (event_name : String) (current : FsmState) : Option (List CStmt) :=
  bubbleGo sd event_name current fuel (some current)

/-- `get_event_names`: the distinct event names of all internal and outgoing
    transitions, sorted alphabetically (comparison by character lists, which is
    the code-point order Python's `sorted` uses on strings). -/
def get_event_names (sd : StateDict) : List String :=
  let transitions := (sd.map Prod.snd).foldl
    (fun acc st => acc ++ st.int_transitions ++ st.out_transitions) ([] : List Transition)
  ((transitions.map (·.event)).dedup).insertionSort (fun a b => a.toList ≤ b.toList)

/-- The first top-level state flagged initial
    (`[x for x in states.values() if x.parent_state is None and x.is_initial_state][0]`). -/
def findTopInitial (sd : StateDict) : Option String :=
  (((sd.map Prod.snd).filter
      (fun x => x.parent_state.isNone && x.is_initial_state)).head?).map (·.name)

/-- The `while initial_state.child_states:` descent of `generate_fsm_header_file`:
    follow first initial children down to a leaf, returning the leaf name. -/
def descendLoop (sd : StateDict) : Nat → String → Option String
  | 0, _ => none
  | fuel + 1, cur => do
    let st ← lookupState sd cur
    if st.child_states.isEmpty then some cur
    else do
      let c ← firstInitialChild sd st.child_states
      descendLoop sd fuel c

/-- `makeInitStateEntryCode`: climb from the initial leaf to the root through
    parent links; entry calls are emitted for the resulting root-to-leaf chain. -/
def makeInitStateEntryCode (sd : StateDict) : Nat → String → Option (List String)
  | 0, _ => none
  | fuel + 1, cur =>
    match lookupState sd cur with
    | none => none
    | some st =>
      match st.parent_state with
      | none => some [cur]
      | some p => (makeInitStateEntryCode sd fuel p).map (· ++ [cur])

/-- The generated header, abstracted: enumeration orders, the entry calls and
    return state of `init()`, and the dispatch cases keyed by event then state. -/
structure Header where
  stateNames : List String
  eventNames : List String
  initEntryCalls : List String
  initReturnState : String
  dispatch : List (String × List (String × List CStmt))
deriving Repr, DecidableEq

/-- `generate_fsm_header_file`, abstracted to the `Header` record. -/
def generate_fsm_header (sd : StateDict) (fuel : Nat) : Option Header := do
  let events := get_event_names sd
  let top ← findTopInitial sd
  let leaf ← descendLoop sd fuel top
  let initCalls ← makeInitStateEntryCode sd fuel leaf
  let dispatch ← events.mapM fun ev => do
    let cases ← (sd.map Prod.snd).mapM fun st => do
      let c ← makePostEventStateSwitchCaseCode sd fuel ev st
      pure (st.name, c)
    pure (ev, cases.filter fun p => ¬ p.2.isEmpty)
  pure ⟨sd.map Prod.fst, events, initCalls, leaf, dispatch⟩

/- ===== Execution semantics of the emitted dispatch code ===== -/

/-- An observable effect of running a dispatch case: an exit-action call, an
    entry-action call, one executed action, or the new-state assignment. -/
inductive Ev where
  | exit (st : String)
  | entry (st : String)
  | act (code : String)
  | set (st : String)
deriving Repr, DecidableEq

/-- Run one optionally guarded action block under a guard valuation. -/
def runActionBlock (env : String → Bool) (g : Option String) (acts : List String) : List Ev :=
  match g with
  | none => acts.map Ev.act
  | some gc => if env gc then acts.map Ev.act else []

/-- Run the statements of a transition block; the Bool reports whether a C `break`
    was reached (aborting the whole switch case). -/
def runB (env : String → Bool) : List BStmt → List Ev × Bool
  | [] => ([], false)
  | .exitCall st :: rest =>
    let r := runB env rest; (Ev.exit st :: r.1, r.2)
  | .entryCall st :: rest =>
    let r := runB env rest; (Ev.entry st :: r.1, r.2)
  | .assign st :: rest =>
    let r := runB env rest; (Ev.set st :: r.1, r.2)
  | .actionBlock g acts :: rest =>
    let r := runB env rest; (runActionBlock env g acts ++ r.1, r.2)
  | .brk :: _ => ([], true)

/-- Run the top-level statements of a dispatch case: comments are inert, action
    blocks run when their guard holds, a transition block runs when its guard
    holds and stops everything after itself when its body hits `break`. -/
def runC (env : String → Bool) : List CStmt → List Ev × Bool
  | [] => ([], false)
  | .commentInt _ :: rest => runC env rest
  | .commentTrans _ :: rest => runC env rest
  | .actionBlock g acts :: rest =>
    let r := runC env rest; (runActionBlock env g acts ++ r.1, r.2)
  | .transBlock g body :: rest =>
    let fire := match g with | none => true | some gc => env gc
    if fire then
      let rb := runB env body
      if rb.2 then (rb.1, true)
      else
        let r := runC env rest; (rb.1 ++ r.1, r.2)
    else runC env rest

/- ===== Extractors over emitted code ===== -/

/-- The state names of the exit calls of a transition-block body, in order. -/
def bExitCalls (body : List BStmt) : List String :=
  body.filterMap fun s => match s with | .exitCall n => some n | _ => none

/-- The state names of the entry calls of a transition-block body, in order. -/
def bEntryCalls (body : List BStmt) : List String :=
  body.filterMap fun s => match s with | .entryCall n => some n | _ => none

/-- The state names assigned to `new_state` in a transition-block body, in order. -/
def bAssigns (body : List BStmt) : List String :=
  body.filterMap fun s => match s with | .assign n => some n | _ => none

/-- The bodies of the transition blocks of a dispatch case, in order. -/
def transBlockBodies (code : List CStmt) : List (List BStmt) :=
  code.filterMap fun s => match s with | .transBlock _ b => some b | _ => none

/-- All exit calls anywhere in a dispatch case. -/
def cExitCalls (code : List CStmt) : List String :=
  ((transBlockBodies code).map bExitCalls).flatten

/-- All entry calls anywhere in a dispatch case. -/
def cEntryCalls (code : List CStmt) : List String :=
  ((transBlockBodies code).map bEntryCalls).flatten

/-- All new-state assignments anywhere in a dispatch case. -/
def cAssigns (code : List CStmt) : List String :=
  ((transBlockBodies code).map bAssigns).flatten

/- ===== Relational vocabulary used by the theorems ===== -/

/-- `parentLink sd a b`: the state stored under name `a` has parent name `b`. -/
def parentLink (sd : StateDict) (a b : String) : Prop :=
  (lookupState sd a).bind (·.parent_state) = some b

/-- A level of the bubbling search with no transition (internal or outgoing)
    matching the event: the search moves past it. -/
def levelNoMatch (sd : StateDict) (ev n : String) : Prop :=
  ∃ st, lookupState sd n = some st ∧
    st.int_transitions.filter (fun t => t.event == ev) = [] ∧
    st.out_transitions.filter (fun t => t.event == ev) = []

/-- The full ancestor list of a state: itself, its parent, and so on up to a
    root state (one with no parent). -/
def ancestorsFrom (sd : StateDict) : Nat → String → Option (List String)
  | 0, _ => none
  | fuel + 1, cur => do
    let st ← lookupState sd cur
    match st.parent_state with
    | none => some [cur]
    | some p => (ancestorsFrom sd fuel p).map (cur :: ·)

/-- `IsInitialDescent sd cur chain`: `chain` descends from `cur` through the unique
    initial child of each composite state and ends at a leaf. -/
def IsInitialDescent (sd : StateDict) : String → List String → Prop
  | cur, [] => ∃ st, lookupState sd cur = some st ∧ st.child_states = []
  | cur, c :: rest => ∃ st, lookupState sd cur = some st ∧ st.child_states ≠ [] ∧
      initialChildNames sd st = [c] ∧ IsInitialDescent sd c rest

/-- Every dictionary entry stores a state whose `name` field is its key. -/
def KeyNameCoherent (sd : StateDict) : Prop :=
  ∀ p ∈ sd, (p.2 : FsmState).name = p.1

/-- Every child registered in a parent's child list names that parent as its
    `parent_state` (true of every dictionary the parser builds). -/
def ParentChildCoherent (sd : StateDict) : Prop :=
  ∀ p ∈ sd, ∀ c ∈ (p.2 : FsmState).child_states,
    ((lookupState sd c).map (·.parent_state)).getD (some p.1) = some p.1

/-- The optional extra exit level: the declaring state's parent, if any. -/
def parentOpt (st : FsmState) : List String :=
  match st.parent_state with | some p => [p] | none => []

/- ===== Concrete witness data ===== -/

/-- Root composite state of the witness machine: initial, children `A`, `B`,
    one outgoing transition on `go` to `Q`. -/
def wP : FsmState :=
  ⟨"P", none, ["A", "B"], true, [⟨"go", none, "P", "Q", ["gAct()"]⟩], [], [], []⟩

/-- Initial leaf child of `P` with an unguarded and then a guarded outgoing
    transition on the same event `dup`. -/
def wA : FsmState :=
  ⟨"A", some "P", [], true,
   [⟨"dup", none, "A", "B", ["d1()"]⟩, ⟨"dup", some "x > 0", "A", "B", ["d2()"]⟩],
   [], [], []⟩

/-- Leaf child of `P` with two unguarded internal transitions on `ping`. -/
def wB : FsmState :=
  ⟨"B", some "P", [], false, [],
   [⟨"ping", none, "B", "B", ["p1()"]⟩, ⟨"ping", none, "B", "B", ["p2()"]⟩], [], []⟩

/-- Non-initial root composite, destination of the `go` transition. -/
def wQ : FsmState := ⟨"Q", none, ["C"], false, [], [], [], []⟩

/-- Initial composite child of `Q`. -/
def wC : FsmState := ⟨"C", some "Q", ["E"], true, [], [], [], []⟩

/-- Initial leaf child of `C`. -/
def wE : FsmState := ⟨"E", some "C", [], true, [], [], [], []⟩

/-- A hand-built validated model exercising bubbling, descent and guards. -/
def WitnessDict : StateDict :=
  [("P", wP), ("A", wA), ("B", wB), ("Q", wQ), ("C", wC), ("E", wE)]

/-- The raw text of the spec's fixed scenario diagram. -/
def scenarioStrings : List String :=
  ["@startuml", "[*] --> Idle", "state Idle \x7b", "  [*] --> Off", "  state Off",
   "  state On", "  On --> Off : stop", "\x7d", "state Working",
   "Idle --> Working : start", "Working --> Idle : finish", "@enduml"]

/-- The scenario diagram as numbered lines. -/
def scenarioLines : List PLine := mkLines scenarioStrings

/-- The model the front end builds for the scenario diagram. -/
def scenarioSd : StateDict := (parse_puml_lines scenarioLines).toOption.getD []

/-- The `On` state of the scenario model. -/
def scenarioOn : FsmState :=
  (lookupState scenarioSd "On").getD ⟨"On", none, [], false, [], [], [], []⟩

/-- The dispatch case the back end emits for `(A, go)` in the witness model. -/
def wGoCode : List CStmt :=
  [.commentTrans ⟨"go", none, "P", "Q", ["gAct()"]⟩,
   .transBlock none
     [.exitCall "A", .exitCall "P", .actionBlock none ["gAct()"],
      .entryCall "Q", .entryCall "C", .entryCall "E", .assign "E", .brk]]

/-- The unguarded `dup` transition of state `A` in the witness model. -/
def wDupT1 : Transition := ⟨"dup", none, "A", "B", ["d1()"]⟩

/-- The guarded `dup` transition of state `A` in the witness model. -/
def wDupT2 : Transition := ⟨"dup", some "x > 0", "A", "B", ["d2()"]⟩

/-- The block body emitted for `wDupT1`. -/
def wDupBody : List BStmt :=
  [.exitCall "A", .exitCall "P", .actionBlock none ["d1()"],
   .entryCall "P", .entryCall "B", .assign "B", .brk]

/-- The block body emitted for `wDupT2`. -/
def wDupBody2 : List BStmt :=
  [.exitCall "A", .exitCall "P", .actionBlock (some "x > 0") ["d2()"],
   .entryCall "P", .entryCall "B", .assign "B", .brk]

/-- The dispatch case the back end emits for `(A, dup)` in the witness model. -/
def wDupCode : List CStmt :=
  [.commentTrans wDupT1, .transBlock none wDupBody,
   .commentTrans wDupT2, .transBlock (some "x > 0") wDupBody2]

/-- The dispatch case for `(A, dup)` with only the unguarded candidate kept. -/
def wDupCode1 : List CStmt := [.commentTrans wDupT1, .transBlock none wDupBody]

/-- The dispatch case the back end emits for `(On, stop)` in the scenario model. -/
def scenarioStopCode : List CStmt :=
  [.commentTrans ⟨"stop", none, "On", "Off", []⟩,
   .transBlock none
     [.exitCall "On", .exitCall "Idle", .entryCall "Idle", .entryCall "Off",
      .assign "Off", .brk]]

/- ===== Lemmas about the lexical normalizer ===== -/

lemma removeHashAux_true_of_head (l : List Char) (h : headIsWord l = false) :
    removeHashAux true l = removeHashAux false l := by
  cases l with
  | nil => rfl
  | cons c rest =>
    have hc : isWordChar c = false := by simpa [headIsWord] using h
    simp [removeHashAux, hc]

lemma removeHashAux_true_append (w rest : List Char)
    (hw : ∀ c ∈ w, isWordChar c = true) (hr : headIsWord rest = false) :
    removeHashAux true (w ++ rest) = removeHashAux false rest := by
  induction w with
  | nil => simpa using removeHashAux_true_of_head rest hr
  | cons d w' ih =>
    have hd : isWordChar d = true := hw d (List.mem_cons_self d w')
    rw [List.cons_append, removeHashAux]
    rw [if_pos (by simp [hd])]
    exact ih fun c hc => hw c (List.mem_cons_of_mem d hc)

lemma headIsSpace_dropWhile (l : List Char) :
    headIsSpace (l.dropWhile isPySpace) = false := by
  induction l with
  | nil => rfl
  | cons c rest ih =>
    rw [List.dropWhile_cons]
    by_cases h : isPySpace c
    · simpa [h] using ih
    · simp [h, headIsSpace]

lemma dropWhile_append_last (p : Char → Bool) (c : Char) (hc : p c = false) :
    ∀ y : List Char, ∃ z, (y ++ [c]).dropWhile p = z ++ [c] := by
  intro y
  induction y with
  | nil => exact ⟨[], by simp [hc]⟩
  | cons d y' ih =>
    by_cases h : p d
    · obtain ⟨z, hz⟩ := ih
      exact ⟨z, by simp [List.dropWhile_cons, h, hz]⟩
    · exact ⟨d :: y', by simp [List.dropWhile_cons, h]⟩

lemma cutQuote_of_not_mem (u : List Char) (h : quoteChar ∉ u) : cutQuote u = u := by
  induction u with
  | nil => rfl
  | cons c u' ih =>
    have hc : c ≠ quoteChar := fun he => h (he ▸ List.mem_cons_self c u')
    have h' : quoteChar ∉ u' := fun hm => h (List.mem_cons_of_mem c hm)
    simp only [cutQuote] at ih ⊢
    rw [List.takeWhile_cons, if_pos (by simp [hc]), ih h']

lemma cutQuote_append (u v : List Char) (h : quoteChar ∉ u) :
    cutQuote (u ++ quoteChar :: v) = u := by
  induction u with
  | nil => simp [cutQuote]
  | cons c u' ih =>
    have hc : c ≠ quoteChar := fun he => h (he ▸ List.mem_cons_self c u')
    have h' : quoteChar ∉ u' := fun hm => h (List.mem_cons_of_mem c hm)
    simp only [cutQuote] at ih ⊢
    rw [List.cons_append, List.takeWhile_cons, if_pos (by simp [hc]), ih h']

lemma pyStrip_decomp (l : List Char) :
    ∃ a b, (∀ c ∈ a, isPySpace c = true) ∧ (∀ c ∈ b, isPySpace c = true) ∧
      l = a ++ pyStrip l ++ b := by
  refine ⟨l.takeWhile isPySpace,
    ((l.dropWhile isPySpace).reverse.takeWhile isPySpace).reverse,
    fun c hc => List.mem_takeWhile_imp hc,
    fun c hc => List.mem_takeWhile_imp (List.mem_reverse.mp hc), ?_⟩
  have h1 : l.takeWhile isPySpace ++ l.dropWhile isPySpace = l :=
    List.takeWhile_append_dropWhile isPySpace l
  have h2 : (l.dropWhile isPySpace).reverse.takeWhile isPySpace ++
      (l.dropWhile isPySpace).reverse.dropWhile isPySpace =
      (l.dropWhile isPySpace).reverse :=
    List.takeWhile_append_dropWhile isPySpace (l.dropWhile isPySpace).reverse
  have h3 : l.dropWhile isPySpace = pyStrip l ++
      ((l.dropWhile isPySpace).reverse.takeWhile isPySpace).reverse := by
    conv_lhs => rw [← List.reverse_reverse (l.dropWhile isPySpace), ← h2]
    rw [List.reverse_append]
    rfl
  conv_lhs => rw [← h1, h3]
  rw [List.append_assoc]

lemma pyStrip_last_not_space (l : List Char) :
    headIsSpace (pyStrip l).reverse = false := by
  rw [pyStrip, List.reverse_reverse]
  exact headIsSpace_dropWhile _

lemma pyStrip_head_not_space (l : List Char) : headIsSpace (pyStrip l) = false := by
  cases hm : l.dropWhile isPySpace with
  | nil => simp [pyStrip, hm, headIsSpace]
  | cons c m' =>
    have hc : isPySpace c = false := by
      have := headIsSpace_dropWhile l
      rw [hm] at this
      simpa [headIsSpace] using this
    obtain ⟨z, hz⟩ := dropWhile_append_last isPySpace c hc m'.reverse
    rw [pyStrip, hm, List.reverse_cons, hz, List.reverse_append]
    simp [headIsSpace, hc]

/-- C6, counterexample: the normalizer does not remove everything after a `#`
    comment marker. On the line `x #c y` it deletes only the `#c` run and keeps
    ` y`, yielding `x  y`, not the `x` the claim predicts. -/
theorem C6_counterexample :
    (cleanup_lines [mkLine "f" 1 "x #c y"]).map PLine.text = ["x  y".toList] ∧
    "x  y".toList ≠ "x".toList := by decide

/-- C6, amended: the comment stripper deletes exactly the marker together with
    the immediately following run of word characters - `removeHashRuns` maps a
    `#` followed by a maximal nonempty word run to the normalized remainder (so
    the text after the run is kept), keeps a `#` not followed by a word
    character, and keeps every non-`#` character; the quote cut keeps exactly
    the text before the first quote character; trimming only removes whitespace
    from the two ends, leaving ends that are not whitespace; and a line is kept
    by `cleanup_lines` exactly when it is not a directive line and the trimmed
    quote-cut hash-stripped text is nonempty, in which case that text replaces
    the line's text. -/
theorem C6_cleanup_normalization :
    (∀ (w rest : List Char), w ≠ [] → (∀ c ∈ w, isWordChar c = true) →
      headIsWord rest = false →
      removeHashRuns (hashChar :: (w ++ rest)) = removeHashRuns rest) ∧
    (∀ rest : List Char, headIsWord rest = false →
      removeHashRuns (hashChar :: rest) = hashChar :: removeHashRuns rest) ∧
    (∀ (c : Char) (rest : List Char), c ≠ hashChar →
      removeHashRuns (c :: rest) = c :: removeHashRuns rest) ∧
    (∀ u v : List Char, quoteChar ∉ u → cutQuote (u ++ quoteChar :: v) = u) ∧
    (∀ u : List Char, quoteChar ∉ u → cutQuote u = u) ∧
    (∀ l : List Char, ∃ a b, (∀ c ∈ a, isPySpace c = true) ∧
      (∀ c ∈ b, isPySpace c = true) ∧ l = a ++ pyStrip l ++ b ∧
      headIsSpace (pyStrip l) = false ∧ headIsSpace (pyStrip l).reverse = false) ∧
    (∀ (lines : List PLine) (l : PLine), l ∈ cleanup_lines lines ↔
      ∃ l0 ∈ lines, directiveStart l0.text = false ∧
        pyStrip (cutQuote (removeHashRuns l0.text)) ≠ [] ∧
        l = { l0 with text := pyStrip (cutQuote (removeHashRuns l0.text)) }) := by
  refine ⟨?_, ?_, ?_, cutQuote_append, cutQuote_of_not_mem, ?_, ?_⟩
  · intro w rest hne hall hr
    cases w with
    | nil => exact absurd rfl hne
    | cons d w' =>
      have hh : headIsWord (d :: (w' ++ rest)) = true := by
        simp [headIsWord, hall d (List.mem_cons_self d w')]
      simp only [removeHashRuns]
      rw [removeHashAux]
      rw [if_neg (by simp), if_pos (by simp [hh])]
      simpa using removeHashAux_true_append (d :: w') rest hall hr
  · intro rest hr
    simp only [removeHashRuns]
    rw [removeHashAux]
    rw [if_neg (by simp), if_neg (by simp [hr])]
  · intro c rest hc
    simp only [removeHashRuns]
    rw [removeHashAux]
    rw [if_neg (by simp), if_neg (by simp [hc])]
  · intro l
    obtain ⟨a, b, ha, hb, hl⟩ := pyStrip_decomp l
    exact ⟨a, b, ha, hb, hl, pyStrip_head_not_space l, pyStrip_last_not_space l⟩
  · intro lines l
    constructor
    · intro h
      rw [cleanup_lines, List.mem_filterMap] at h
      obtain ⟨l0, hl0, hf⟩ := h
      by_cases hemp : (cleanupText l0.text).isEmpty
      · simp [hemp] at hf
      · simp only [hemp, Bool.false_eq_true, if_neg, reduceIte, Option.some.injEq] at hf
        by_cases hdir : directiveStart l0.text
        · rw [cleanupText, if_pos hdir] at hemp
          simp at hemp
        · have htext : cleanupText l0.text = pyStrip (cutQuote (removeHashRuns l0.text)) := by
            rw [cleanupText, if_neg hdir]
          refine ⟨l0, hl0, by simpa using hdir, ?_, ?_⟩
          · rw [← htext]
            simpa [List.isEmpty_iff] using hemp
          · rw [← hf, htext]
    · rintro ⟨l0, hl0, hdir, hne, rfl⟩
      rw [cleanup_lines, List.mem_filterMap]
      refine ⟨l0, hl0, ?_⟩
      have htext : cleanupText l0.text = pyStrip (cutQuote (removeHashRuns l0.text)) := by
        rw [cleanupText, if_neg (by simp [hdir])]
      show (if (cleanupText l0.text).isEmpty then none
        else some { l0 with text := cleanupText l0.text }) =
        some { l0 with text := pyStrip (cutQuote (removeHashRuns l0.text)) }
      rw [htext, if_neg (by simpa [List.isEmpty_iff] using hne)]

/-- Witness for C6: at concrete inputs, deleting the run `#c` from `#c y` keeps
    the following text ` y`, a bare `#` before a space is kept, the quote cut
    keeps the prefix `ab `, and the line `x #c y` survives normalization with
    text `x  y`. -/
theorem C6_witness :
    removeHashRuns (hashChar :: ("c".toList ++ " y".toList)) = removeHashRuns " y".toList ∧
    removeHashRuns (hashChar :: " y".toList) = hashChar :: removeHashRuns " y".toList ∧
    cutQuote ("ab ".toList ++ quoteChar :: "q".toList) = "ab ".toList ∧
    ((⟨"f", 1, "x #c y".toList, "x  y".toList⟩ : PLine) ∈
      cleanup_lines [mkLine "f" 1 "x #c y"]) :=
  ⟨C6_cleanup_normalization.1 "c".toList " y".toList (by decide) (by decide) (by decide),
   C6_cleanup_normalization.2.1 " y".toList (by decide),
   C6_cleanup_normalization.2.2.2.1 "ab ".toList "q".toList (by decide),
   (C6_cleanup_normalization.2.2.2.2.2.2 [mkLine "f" 1 "x #c y"]
       ⟨"f", 1, "x #c y".toList, "x  y".toList⟩).mpr
     ⟨mkLine "f" 1 "x #c y", by decide, by decide, by decide, by decide⟩⟩

/- ===== C4: unclosed blocks ===== -/

lemma parseStatesStep_open_isOk (initNames : List String) (acc : PSAcc) (fn : String)
    (k : Nat) : (parseStatesStep initNames acc (mkLine fn k "state X \x7b")).isOk = true := rfl

/-- C4, counterexample: a diagram whose `state A {` block is never closed is
    accepted by the whole front end: compilation succeeds instead of failing
    with an `UnclosedBlock` error (no such check exists in `parse_states`). -/
theorem C4_counterexample :
    parse_puml_lines (mkLines ["[*] --> A", "state A \x7b"]) =
      .ok [("A", ⟨"A", none, [], true, [], [], [], []⟩)] := rfl

/-- C4, amended: `parse_states` performs no end-of-input check on the block
    stack, so appending a line that opens a new, never-closed block to any
    successfully parsed input still parses successfully. -/
theorem C4_append_open_block (lines : List PLine) (initNames : List String)
    (fn : String) (k : Nat) (h : (parse_states lines initNames).isOk = true) :
    (parse_states (lines ++ [mkLine fn k "state X \x7b"]) initNames).isOk = true := by
  unfold parse_states at h ⊢
  rw [List.foldlM_append]
  cases hfold : lines.foldlM (parseStatesStep initNames) ⟨[], [none], []⟩ with
  | error e =>
    rw [hfold] at h
    simp [Except.isOk, Except.toBool, Except.bind, Bind.bind] at h
  | ok acc =>
    have hstep := parseStatesStep_open_isOk initNames acc fn k
    cases hs : parseStatesStep initNames acc (mkLine fn k "state X \x7b") with
    | error e =>
      rw [hs] at hstep
      simp [Except.isOk, Except.toBool] at hstep
    | ok acc2 =>
      simp [List.foldlM_cons, List.foldlM_nil, hs, Except.isOk, Except.toBool,
        Except.bind, Bind.bind, pure, Except.pure]

/-- Witness for C4 (amended): the empty input parses, and still parses after
    appending an unclosed `state X {` line. -/
theorem C4_witness :
    (parse_states [] []).isOk = true ∧
    (parse_states ([] ++ [mkLine "f" 1 "state X \x7b"]) []).isOk = true :=
  ⟨rfl, C4_append_open_block [] [] "f" 1 rfl⟩

/- ===== C5: the fixed scenario ===== -/

/-- C5, counterexample: in the scenario model, posting `stop` while `On` is
    active is not an internal transition: the emitted case contains exit-action
    calls and assigns a new active state. -/
theorem C5_counterexample :
    (parse_puml_lines scenarioLines).isOk = true ∧
    makePostEventStateSwitchCaseCode scenarioSd 10 "stop" scenarioOn =
      some scenarioStopCode ∧
    cExitCalls scenarioStopCode ≠ [] ∧ cAssigns scenarioStopCode ≠ [] :=
  ⟨rfl, rfl, by decide, by decide⟩

/-- C5, amended: `On --> Off : stop` inside `Idle`'s block is parsed by the
    transition linker as an ordinary outgoing transition from `On` to `Off`, so
    resolving `(On, stop)` fires an outgoing transition: exit `On`, exit `Idle`,
    enter `Idle`, enter `Off`, and the new active state is `Off`. -/
theorem C5_on_stop_outgoing :
    (parse_puml_lines scenarioLines).isOk = true ∧
    makePostEventStateSwitchCaseCode scenarioSd 10 "stop" scenarioOn =
      some scenarioStopCode ∧
    cExitCalls scenarioStopCode = ["On", "Idle"] ∧
    cEntryCalls scenarioStopCode = ["Idle", "Off"] ∧
    cAssigns scenarioStopCode = ["Off"] :=
  ⟨rfl, rfl, rfl, rfl, rfl⟩

/- ===== C9: the event enumeration ===== -/

lemma mem_foldl_transitions (l : List FsmState) (init : List Transition) (t : Transition) :
    t ∈ l.foldl (fun acc st => acc ++ st.int_transitions ++ st.out_transitions) init ↔
    t ∈ init ∨ ∃ st ∈ l, t ∈ st.int_transitions ∨ t ∈ st.out_transitions := by
  induction l generalizing init with
  | nil => simp
  | cons s rest ih =>
    rw [List.foldl_cons, ih]
    simp only [List.mem_append, List.mem_cons]
    constructor
    · rintro (((h | h) | h) | ⟨st, hst, h⟩)
      · exact Or.inl h
      · exact Or.inr ⟨s, Or.inl rfl, Or.inl h⟩
      · exact Or.inr ⟨s, Or.inl rfl, Or.inr h⟩
      · exact Or.inr ⟨st, Or.inr hst, h⟩
    · rintro (h | ⟨st, (rfl | hst), h⟩)
      · exact Or.inl (Or.inl (Or.inl h))
      · rcases h with h | h
        · exact Or.inl (Or.inl (Or.inr h))
        · exact Or.inl (Or.inr h)
      · exact Or.inr ⟨st, hst, h⟩

/-- C9: the emitted event enumeration lists exactly the distinct event names of
    the internal and outgoing transitions of all states, alphabetically sorted
    and duplicate-free; entry/exit hooks contribute nothing. -/
theorem C9_event_enumeration (sd : StateDict) :
    (get_event_names sd).Sorted (· ≤ ·) ∧ (get_event_names sd).Nodup ∧
    (∀ n, n ∈ get_event_names sd ↔
      ∃ p ∈ sd, ∃ t, (t ∈ (p.2 : FsmState).int_transitions ∨ t ∈ p.2.out_transitions) ∧
        (t : Transition).event = n) ∧
    ∀ fuel hdr, generate_fsm_header sd fuel = some hdr →
      hdr.eventNames = get_event_names sd := by
  haveI hTot : IsTotal String (fun a b => a.toList ≤ b.toList) :=
    ⟨fun a b => le_total a.toList b.toList⟩
  haveI hTr : IsTrans String (fun a b => a.toList ≤ b.toList) :=
    ⟨fun _ _ _ hab hbc => le_trans hab hbc⟩
  refine ⟨(List.sorted_insertionSort _ _).imp (fun h => String.le_iff_toList_le.mpr h),
    ((List.perm_insertionSort _ _).nodup_iff).mpr (List.nodup_dedup _), fun n => ?_, ?_⟩
  · rw [get_event_names]
    rw [(List.perm_insertionSort _ _).mem_iff, List.mem_dedup, List.mem_map]
    constructor
    · rintro ⟨t, ht, rfl⟩
      rw [mem_foldl_transitions] at ht
      rcases ht with h | ⟨st, hst, h⟩
      · simp at h
      · rw [List.mem_map] at hst
        obtain ⟨p, hp, rfl⟩ := hst
        exact ⟨p, hp, t, h, rfl⟩
    · rintro ⟨p, hp, t, h, rfl⟩
      refine ⟨t, ?_, rfl⟩
      rw [mem_foldl_transitions]
      exact Or.inr ⟨p.2, List.mem_map_of_mem Prod.snd hp, h⟩
  · intro fuel hdr hgen
    rw [generate_fsm_header] at hgen
    simp only [bind, Option.bind_eq_some] at hgen
    obtain ⟨top, _, leaf, _, ic, _, disp, _, hpure⟩ := hgen
    cases hpure
    rfl

/-- Witness for C9: the event enumeration of the concrete witness model. -/
theorem C9_witness :
    (get_event_names WitnessDict).Sorted (· ≤ ·) ∧
    ((generate_fsm_header WitnessDict 10).getD ⟨[], [], [], "", []⟩).eventNames =
      get_event_names WitnessDict :=
  ⟨(C9_event_enumeration WitnessDict).1,
   (C9_event_enumeration WitnessDict).2.2.2 10
     ((generate_fsm_header WitnessDict 10).getD ⟨[], [], [], "", []⟩) (by decide)⟩

/- ===== Bubbling lemmas ===== -/

lemma bubbleGo_skip (sd : StateDict) (ev : String) (cur : FsmState) (L : String) :
    ∀ (pre : List String) (fuel : Nat),
      (∀ n ∈ pre, levelNoMatch sd ev n) →
      List.Chain' (parentLink sd) (pre ++ [L]) →
      bubbleGo sd ev cur (pre.length + fuel) ((pre ++ [L]).head?.bind (lookupState sd)) =
      bubbleGo sd ev cur fuel (lookupState sd L) := by
  intro pre
  induction pre with
  | nil => intro fuel _ _; simp
  | cons n pre2 ih =>
    intro fuel hpre hchain
    obtain ⟨st, hlook, hint, hout⟩ := hpre n (by simp)
    have hch2 : List.Chain' (parentLink sd) (pre2 ++ [L]) := (List.chain'_cons'.mp hchain).2
    obtain ⟨y, hy⟩ : ∃ y, (pre2 ++ [L]).head? = some y := by cases pre2 <;> simp
    have hplink := (List.chain'_cons'.mp hchain).1 y (by simp [hy])
    rw [parentLink, hlook, Option.some_bind] at hplink
    have hh : ((n :: pre2) ++ [L]).head?.bind (lookupState sd) = some st := by
      simp [hlook]
    rw [hh]
    have hlen : (n :: pre2).length + fuel = (pre2.length + fuel) + 1 := by
      simp only [List.length_cons]; omega
    rw [hlen, bubbleGo]
    simp only [hint, hout, List.isEmpty_nil, if_true]
    rw [hplink, Option.some_bind]
    have hrec := ih fuel (fun m hm => hpre m (List.mem_cons_of_mem _ hm)) hch2
    rw [hy, Option.some_bind] at hrec
    exact hrec

lemma exitWalk_chain (sd : StateDict) (L : String) :
    ∀ (pre : List String) (fuel : Nat) (s : String),
      pre.length < fuel → L ∉ pre →
      List.Chain' (parentLink sd) (pre ++ [L]) →
      (pre ++ [L]).head? = some s →
      exitWalk sd L fuel s = some (pre ++ [L]) := by
  intro pre
  induction pre with
  | nil =>
    intro fuel s hfuel _ _ hs
    simp only [List.nil_append, List.head?_cons, Option.some.injEq] at hs
    subst hs
    cases fuel with
    | zero => omega
    | succ f =>
      rw [exitWalk, if_pos rfl]
      simp
  | cons n pre2 ih =>
    intro fuel s hfuel hnotin hchain hs
    simp only [List.cons_append, List.head?_cons, Option.some.injEq] at hs
    subst hs
    have hnL : n ≠ L := fun h => hnotin (h ▸ List.mem_cons_self _ _)
    obtain ⟨y, hy⟩ : ∃ y, (pre2 ++ [L]).head? = some y := by cases pre2 <;> simp
    have hplink := (List.chain'_cons'.mp hchain).1 y (by simp [hy])
    rw [parentLink] at hplink
    obtain ⟨st, hlook, hpar⟩ := Option.bind_eq_some.mp hplink
    cases fuel with
    | zero => simp at hfuel
    | succ f =>
      rw [exitWalk, if_neg hnL]
      have hrec := ih f y (by simpa using hfuel)
        (fun h => hnotin (List.mem_cons_of_mem _ h))
        (List.chain'_cons'.mp hchain).2 hy
      simp [hlook, hpar, hrec, Option.bind]

/- ===== Extractor lemmas ===== -/

lemma filterMap_none_eq_nil {α β : Type} (l : List α) :
    l.filterMap (fun _ => (none : Option β)) = [] :=
  List.filterMap_eq_nil_iff.mpr (fun _ _ => rfl)

lemma transBlockBodies_actionBlocks (ev : String) (l : List (Option String × List String)) :
    transBlockBodies (CStmt.commentInt ev ::
      l.map (fun p => CStmt.actionBlock p.1 p.2)) = [] := by
  rw [transBlockBodies]
  simp only [List.filterMap_cons, List.filterMap_map, Function.comp_def]
  exact filterMap_none_eq_nil l

lemma bExitCalls_block (exits entered : List String) (abs : List (Option String × List String))
    (nst : String) :
    bExitCalls (exits.map BStmt.exitCall
      ++ abs.map (fun p => BStmt.actionBlock p.1 p.2)
      ++ entered.map BStmt.entryCall ++ [BStmt.assign nst, BStmt.brk]) = exits := by
  rw [bExitCalls]
  simp only [List.filterMap_append, List.filterMap_map, Function.comp_def]
  simp [List.filterMap_cons, filterMap_none_eq_nil]

lemma bEntryCalls_block (exits entered : List String) (abs : List (Option String × List String))
    (nst : String) :
    bEntryCalls (exits.map BStmt.exitCall
      ++ abs.map (fun p => BStmt.actionBlock p.1 p.2)
      ++ entered.map BStmt.entryCall ++ [BStmt.assign nst, BStmt.brk]) = entered := by
  rw [bEntryCalls]
  simp only [List.filterMap_append, List.filterMap_map, Function.comp_def]
  simp [List.filterMap_cons, filterMap_none_eq_nil]

lemma bAssigns_block (exits entered : List String) (abs : List (Option String × List String))
    (nst : String) :
    bAssigns (exits.map BStmt.exitCall
      ++ abs.map (fun p => BStmt.actionBlock p.1 p.2)
      ++ entered.map BStmt.entryCall ++ [BStmt.assign nst, BStmt.brk]) = [nst] := by
  rw [bAssigns]
  simp only [List.filterMap_append, List.filterMap_map, Function.comp_def]
  simp [List.filterMap_cons, filterMap_none_eq_nil]

/- ===== Lemmas about the emitted outgoing-transition blocks ===== -/

lemma outTransCode_eq (sd : StateDict) (fuel : Nat) (S lst : FsmState) (t : Transition)
    (w up down : List String)
    (hw : exitWalk sd lst.name fuel S.name = some w)
    (hup : entryUp sd lst.name fuel t.to_state = some up)
    (hdown : entryDescend sd fuel t.to_state = some down) :
    outTransCode sd fuel S lst t = some
      ((w ++ parentOpt lst).map BStmt.exitCall
        ++ (makeTransitionsActionCode [t]).map (fun p => BStmt.actionBlock p.1 p.2)
        ++ (up ++ down).map BStmt.entryCall
        ++ [BStmt.assign ((up ++ down).getLastD t.to_state), BStmt.brk]) := by
  rw [outTransCode]
  simp [hw, hup, hdown, Option.bind, parentOpt]

lemma outBranchCode_bodies (sd : StateDict) (fuel : Nat) (S lst : FsmState)
    (w : List String) (hw : exitWalk sd lst.name fuel S.name = some w) :
    ∀ (ts : List Transition) (code : List CStmt),
      outBranchCode sd fuel S lst ts = some code →
      (transBlockBodies code).length = ts.length ∧
      ∀ body ∈ transBlockBodies code, bExitCalls body = w ++ parentOpt lst := by
  intro ts
  induction ts with
  | nil =>
    intro code hcode
    rw [outBranchCode, List.mapM_nil] at hcode
    simp only [Option.pure_def, Option.map_some'] at hcode
    rw [Option.some.injEq] at hcode
    subst hcode
    simp [transBlockBodies]
  | cons t rest ih =>
    intro code hcode
    rw [outBranchCode, List.mapM_cons] at hcode
    rw [Option.map_eq_some'] at hcode
    obtain ⟨v, hv, hflat⟩ := hcode
    simp only [bind, Option.bind_eq_some] at hv
    obtain ⟨b, hb, bs, hbs, hv2⟩ := hv
    simp only [Option.pure_def, Option.some.injEq] at hv2
    subst hv2
    rw [outTransBlock, Option.map_eq_some'] at hb
    obtain ⟨body0, hoc, hb2⟩ := hb
    subst hb2
    have hdest := hoc
    rw [outTransCode, hw] at hdest
    simp only [bind, Option.some_bind, Option.bind_eq_some] at hdest
    obtain ⟨up, hup, down, hdown, hsome⟩ := hdest
    have hcanon := outTransCode_eq sd fuel S lst t w up down hw hup hdown
    rw [hoc] at hcanon
    have hbodyval := (Option.some.injEq _ _).mp hcanon
    have hrest : outBranchCode sd fuel S lst rest = some bs.flatten := by
      rw [outBranchCode, hbs]
      rfl
    obtain ⟨ihlen, ihall⟩ := ih bs.flatten hrest
    subst hflat
    rw [List.flatten_cons]
    have hbodies : transBlockBodies
        (([CStmt.commentTrans t, CStmt.transBlock t.guard body0] ++ bs.flatten)) =
        body0 :: transBlockBodies bs.flatten := by
      simp [transBlockBodies, List.filterMap_append, List.filterMap_cons]
    rw [hbodies]
    constructor
    · simp [ihlen]
    · intro body hbody
      rcases List.mem_cons.mp hbody with h | h
      · subst h
        rw [hbodyval]
        exact bExitCalls_block _ _ _ _
      · exact ihall body h

/- ===== C1: the exit chain ===== -/

/-- C1: when the bubbling search for event `ev` starting at state `S` finds its
    firing outgoing transitions at ancestor level `L` (no internal or outgoing
    match below `L`, no internal match at `L`), every emitted transition block
    calls exit actions exactly for the chain from `S` up to and including `L`,
    in leaf-to-ancestor order, followed by one extra call for `L`'s parent
    whenever `L` has one. -/
theorem C1_exit_chain (sd : StateDict) (ev : String) (pre : List String) (L : String)
    (S lst : FsmState) (fuel : Nat) (code : List CStmt)
    (hchain : List.Chain' (parentLink sd) (pre ++ [L]))
    (hhead : (pre ++ [L]).head? = some S.name)
    (hS : lookupState sd S.name = some S)
    (hpre : ∀ n ∈ pre, levelNoMatch sd ev n)
    (hLpre : L ∉ pre)
    (hlen : pre.length < fuel)
    (hL : lookupState sd L = some lst)
    (hname : lst.name = L)
    (hint : lst.int_transitions.filter (fun t => t.event == ev) = [])
    (hout : lst.out_transitions.filter (fun t => t.event == ev) ≠ [])
    (hbranch : outBranchCode sd fuel S lst
      (lst.out_transitions.filter (fun t => t.event == ev)) = some code) :
    makePostEventStateSwitchCaseCode sd (pre.length + (fuel + 1)) ev S = some code ∧
    transBlockBodies code ≠ [] ∧
    ∀ body ∈ transBlockBodies code,
      bExitCalls body = (pre ++ [L]) ++ parentOpt lst := by
  have hskip := bubbleGo_skip sd ev S L pre (fuel + 1) hpre hchain
  rw [hhead, Option.some_bind, hS] at hskip
  have hw : exitWalk sd lst.name fuel S.name = some (pre ++ [L]) := by
    rw [hname]
    exact exitWalk_chain sd L pre fuel S.name hlen hLpre hchain hhead
  obtain ⟨hblen, hball⟩ := outBranchCode_bodies sd fuel S lst (pre ++ [L]) hw
    (lst.out_transitions.filter (fun t => t.event == ev)) code hbranch
  refine ⟨?_, ?_, hball⟩
  · rw [makePostEventStateSwitchCaseCode, hskip, hL, bubbleGo]
    rw [if_pos (by rw [hint]; rfl)]
    rw [if_neg (by simpa [List.isEmpty_iff] using hout)]
    exact hbranch
  · intro hnil
    rw [hnil] at hblen
    exact hout (List.length_eq_zero.mp hblen.symm)

/-- Witness for C1: posting `go` in leaf `A` fires `P`'s transition; the block
    exits `A` then `P`, and `P` has no parent so no extra call follows. -/
theorem C1_witness :
    makePostEventStateSwitchCaseCode WitnessDict (List.length ["A"] + (5 + 1)) "go" wA =
      some wGoCode ∧
    transBlockBodies wGoCode ≠ [] ∧
    ∀ body ∈ transBlockBodies wGoCode,
      bExitCalls body = (["A"] ++ ["P"]) ++ parentOpt wP :=
  C1_exit_chain WitnessDict "go" ["A"] "P" wA wP 5 wGoCode
    (List.Chain'.cons rfl (List.chain'_singleton _)) rfl rfl
    (fun n hn => by
      rw [List.mem_singleton] at hn
      subst hn
      exact ⟨wA, rfl, rfl, rfl⟩)
    (by decide) (by decide) rfl rfl rfl (by decide) rfl

/- ===== Lemmas about ancestors and the initial-child descent ===== -/

lemma lookup_mem {sd : StateDict} {k : String} {v : FsmState}
    (h : sd.lookup k = some v) : (k, v) ∈ sd := by
  obtain ⟨l1, l2, rfl, -⟩ := List.lookup_eq_some_iff.mp h
  simp

lemma ancestorsFrom_shape (sd : StateDict) :
    ∀ (fuel : Nat) (d : String) (l : List String),
      ancestorsFrom sd fuel d = some l → ∃ tail, l = d :: tail := by
  intro fuel
  cases fuel with
  | zero => intro d l h; rw [ancestorsFrom] at h; exact absurd h (by simp)
  | succ f =>
    intro d l h
    rw [ancestorsFrom] at h
    simp only [bind, Option.bind_eq_some] at h
    obtain ⟨st, hlook, hm⟩ := h
    cases hp : st.parent_state with
    | none =>
      rw [hp] at hm
      exact ⟨[], by simpa using hm.symm⟩
    | some p =>
      rw [hp, Option.map_eq_some'] at hm
      obtain ⟨anc, _, heq⟩ := hm
      exact ⟨anc, heq.symm⟩

lemma entryUp_of_ancestors (sd : StateDict) (L : String) :
    ∀ (fuel : Nat) (d : String) (tail : List String),
      ancestorsFrom sd fuel d = some (d :: tail) →
      entryUp sd L fuel d = some ((d :: tail.takeWhile (fun x => x ≠ L)).reverse) := by
  intro fuel
  induction fuel with
  | zero => intro d tail h; rw [ancestorsFrom] at h; exact absurd h (by simp)
  | succ f ih =>
    intro d tail h
    rw [ancestorsFrom] at h
    simp only [bind, Option.bind_eq_some] at h
    obtain ⟨st, hlook, hm⟩ := h
    cases hp : st.parent_state with
    | none =>
      rw [hp] at hm
      have htail : tail = [] := by simpa using hm.symm
      subst htail
      simp [entryUp, hlook, hp]
    | some p =>
      rw [hp, Option.map_eq_some'] at hm
      obtain ⟨anc, hanc, heq⟩ := hm
      have hanc2 : anc = tail := by simpa using heq
      subst hanc2
      obtain ⟨tail2, rfl⟩ := ancestorsFrom_shape sd f p anc hanc
      by_cases hpL : p = L
      · subst hpL
        simp [entryUp, hlook, hp, List.takeWhile_cons]
      · simp [entryUp, hlook, hp, hpL, ih p tail2 hanc, List.takeWhile_cons]

lemma find_eq_filter_head {α : Type} (p : α → Bool) (l : List α) :
    l.find? p = (l.filter p).head? := by
  induction l with
  | nil => rfl
  | cons a rest ih =>
    by_cases h : p a
    · rw [List.find?_cons_of_pos _ h, List.filter_cons_of_pos h, List.head?_cons]
    · rw [List.find?_cons_of_neg _ (by simpa using h), List.filter_cons_of_neg (by simpa using h), ih]

lemma initialChildNames_of_keys (sd : StateDict) (hkeys : KeyNameCoherent sd)
    (children : List String) :
    ((children.filterMap (lookupState sd)).filter (·.is_initial_state)).map (·.name) =
      children.filter (fun n => ((lookupState sd n).map (·.is_initial_state)).getD false) := by
  induction children with
  | nil => rfl
  | cons c rest ih =>
    rw [List.filterMap_cons]
    cases hc : lookupState sd c with
    | none => rw [List.filter_cons_of_neg (by simp [hc]), ih]
    | some cst =>
      have hname : cst.name = c := hkeys (c, cst) (lookup_mem hc)
      by_cases hini : cst.is_initial_state
      · rw [List.filter_cons_of_pos (by simpa using hini), List.map_cons, hname,
          List.filter_cons_of_pos (by simp [hc, hini]), ih]
      · rw [List.filter_cons_of_neg (by simpa using hini),
          List.filter_cons_of_neg (by simp [hc, hini]), ih]

lemma firstInitialChild_of_names (sd : StateDict) (hkeys : KeyNameCoherent sd)
    (st : FsmState) (c : String) (hn : initialChildNames sd st = [c]) :
    firstInitialChild sd st.child_states = some c := by
  rw [initialChildNames, initialChildNames_of_keys sd hkeys] at hn
  rw [firstInitialChild, find_eq_filter_head, hn]
  rfl

lemma checkCompositeList_ok (sd : StateDict) :
    ∀ (l : List FsmState), checkCompositeList sd l = .ok () →
      ∀ st ∈ l, st.child_states ≠ [] → ∃ c, initialChildNames sd st = [c] := by
  intro l
  induction l with
  | nil => intro _ st hst; exact absurd hst (List.not_mem_nil st)
  | cons s rest ih =>
    intro h st hst hne
    rw [checkCompositeList] at h
    by_cases hch : s.child_states.isEmpty
    · rw [if_pos hch] at h
      rcases List.mem_cons.mp hst with rfl | hst2
      · exact absurd (List.isEmpty_iff.mp hch) hne
      · exact ih h st hst2 hne
    · rw [if_neg hch] at h
      by_cases h1 : (initialChildNames sd s).isEmpty
      · rw [if_pos h1] at h; exact absurd h (by simp)
      · rw [if_neg h1] at h
        by_cases h2 : (initialChildNames sd s).length ≠ 1
        · rw [if_pos h2] at h; exact absurd h (by simp)
        · rw [if_neg h2] at h
          rcases List.mem_cons.mp hst with rfl | hst2
          · exact List.length_eq_one.mp (not_not.mp h2)
          · exact ih h st hst2 hne

lemma check_states_ok (sd : StateDict) (h : check_states sd = .ok ()) :
    (∃ r, initialRootNames sd = [r]) ∧
    ∀ st ∈ sd.map Prod.snd, st.child_states ≠ [] →
      ∃ c, initialChildNames sd st = [c] := by
  rw [check_states] at h
  by_cases h1 : (initialRootNames sd).isEmpty
  · rw [if_pos h1] at h; exact absurd h (by simp)
  · rw [if_neg h1] at h
    by_cases h2 : (initialRootNames sd).length ≠ 1
    · rw [if_pos h2] at h; exact absurd h (by simp)
    · rw [if_neg h2] at h
      exact ⟨List.length_eq_one.mp (not_not.mp h2), checkCompositeList_ok sd _ h⟩

lemma entryDescend_isInitialDescent (sd : StateDict) (hkeys : KeyNameCoherent sd)
    (hcheck : check_states sd = .ok ()) :
    ∀ (fuel : Nat) (c : String) (down : List String),
      entryDescend sd fuel c = some down → IsInitialDescent sd c down := by
  intro fuel
  induction fuel with
  | zero => intro c down h; rw [entryDescend] at h; exact absurd h (by simp)
  | succ f ih =>
    intro c down h
    rw [entryDescend] at h
    simp only [bind, Option.bind_eq_some] at h
    obtain ⟨st, hlook, hrest⟩ := h
    by_cases hch : st.child_states.isEmpty
    · rw [if_pos hch] at hrest
      have hd : down = [] := by simpa using hrest.symm
      subst hd
      exact ⟨st, hlook, List.isEmpty_iff.mp hch⟩
    · rw [if_neg hch] at hrest
      simp only [bind, Option.bind_eq_some] at hrest
      obtain ⟨c2, hc2, hmap⟩ := hrest
      rw [Option.map_eq_some'] at hmap
      obtain ⟨down2, hd2, hd3⟩ := hmap
      subst hd3
      have hmem : st ∈ sd.map Prod.snd := by
        rw [List.mem_map]
        exact ⟨(c, st), lookup_mem hlook, rfl⟩
      obtain ⟨c', hnames⟩ := (check_states_ok sd hcheck).2 st hmem
        (by simpa [List.isEmpty_iff] using hch)
      have hfirst := firstInitialChild_of_names sd hkeys st c' hnames
      rw [hc2] at hfirst
      have hcc : c2 = c' := by simpa using hfirst
      subst hcc
      exact ⟨st, hlook, by simpa [List.isEmpty_iff] using hch, hnames,
        ih c2 down2 hd2⟩

/- ===== Lemmas about running a transition block ===== -/

lemma runB_exitCalls_append (env : String → Bool) (l : List String) (rest : List BStmt) :
    runB env (l.map BStmt.exitCall ++ rest) =
      (l.map Ev.exit ++ (runB env rest).1, (runB env rest).2) := by
  induction l with
  | nil => simp
  | cons a tl ih => simp [runB, ih]

lemma runB_entryCalls_append (env : String → Bool) (l : List String) (rest : List BStmt) :
    runB env (l.map BStmt.entryCall ++ rest) =
      (l.map Ev.entry ++ (runB env rest).1, (runB env rest).2) := by
  induction l with
  | nil => simp
  | cons a tl ih => simp [runB, ih]

lemma runB_actionBlocks_append (env : String → Bool)
    (l : List (Option String × List String)) (rest : List BStmt) :
    runB env (l.map (fun p => BStmt.actionBlock p.1 p.2) ++ rest) =
      ((l.map (fun p => runActionBlock env p.1 p.2)).flatten ++ (runB env rest).1,
        (runB env rest).2) := by
  induction l with
  | nil => simp
  | cons a tl ih => simp [runB, ih]

lemma runActionBlock_of_env (env : String → Bool) (t : Transition)
    (henv : ∀ g, t.guard = some g → env g = true) :
    ((makeTransitionsActionCode [t]).map (fun p => runActionBlock env p.1 p.2)).flatten =
      t.actions.map Ev.act := by
  rw [makeTransitionsActionCode]
  by_cases ha : t.actions.isEmpty
  · rw [List.isEmpty_iff] at ha
    simp [ha]
  · simp only [List.filterMap_cons, ha, Bool.false_eq_true, if_neg, reduceIte,
      List.filterMap_nil, List.map_cons, List.map_nil, List.flatten]
    cases hg : t.guard with
    | none => simp [runActionBlock]
    | some g => simp [runActionBlock, henv g hg]

lemma outBranchCode_mem (sd : StateDict) (fuel : Nat) (S lst : FsmState) :
    ∀ (ts : List Transition) (code : List CStmt) (t : Transition) (body : List BStmt),
      outBranchCode sd fuel S lst ts = some code → t ∈ ts →
      outTransCode sd fuel S lst t = some body →
      body ∈ transBlockBodies code := by
  intro ts
  induction ts with
  | nil => intro code t body _ ht; exact absurd ht (List.not_mem_nil t)
  | cons t0 rest ih =>
    intro code t body hcode ht hbody
    rw [outBranchCode, List.mapM_cons] at hcode
    rw [Option.map_eq_some'] at hcode
    obtain ⟨v, hv, hflat⟩ := hcode
    simp only [bind, Option.bind_eq_some] at hv
    obtain ⟨b, hb, bs, hbs, hv2⟩ := hv
    simp only [Option.pure_def, Option.some.injEq] at hv2
    subst hv2
    rw [outTransBlock, Option.map_eq_some'] at hb
    obtain ⟨body0, hoc, hb2⟩ := hb
    subst hb2
    subst hflat
    rw [List.flatten_cons]
    have hbodies : transBlockBodies
        ([CStmt.commentTrans t0, CStmt.transBlock t0.guard body0] ++ bs.flatten) =
        body0 :: transBlockBodies bs.flatten := by
      simp [transBlockBodies, List.filterMap_append, List.filterMap_cons]
    rw [hbodies]
    rcases List.mem_cons.mp ht with rfl | ht2
    · rw [hoc] at hbody
      rw [Option.some.injEq] at hbody
      exact hbody ▸ List.mem_cons_self _ _
    · have hrest : outBranchCode sd fuel S lst rest = some bs.flatten := by
        rw [outBranchCode, hbs]
        rfl
      exact List.mem_cons_of_mem _ (ih bs.flatten t body hrest ht2 hbody)

/- ===== C2: the entry chain, transition actions and new state ===== -/

/-- C2: for a firing outgoing transition found at level `L` with destination
    `D`, the emitted entry chain is `D` preceded by its proper ancestors up to
    but excluding `L` (stopping at the root boundary), extended by the unique
    initial-child descent to a leaf; the transition's own actions run after all
    exit actions and before any entry actions, and the assigned new state is the
    chain's final leaf entry. -/
theorem C2_entry_chain (sd : StateDict) (ev : String) (pre : List String) (L : String)
    (S lst : FsmState) (fuel : Nat) (code : List CStmt) (t : Transition)
    (ancTail down : List String) (env : String → Bool)
    (hchain : List.Chain' (parentLink sd) (pre ++ [L]))
    (hhead : (pre ++ [L]).head? = some S.name)
    (hS : lookupState sd S.name = some S)
    (hpre : ∀ n ∈ pre, levelNoMatch sd ev n)
    (hLpre : L ∉ pre)
    (hlen : pre.length < fuel)
    (hL : lookupState sd L = some lst)
    (hname : lst.name = L)
    (hint : lst.int_transitions.filter (fun x => x.event == ev) = [])
    (hout : lst.out_transitions.filter (fun x => x.event == ev) ≠ [])
    (hbranch : outBranchCode sd fuel S lst
      (lst.out_transitions.filter (fun x => x.event == ev)) = some code)
    (hkeys : KeyNameCoherent sd)
    (hcheck : check_states sd = .ok ())
    (ht : t ∈ lst.out_transitions.filter (fun x => x.event == ev))
    (hanc : ancestorsFrom sd fuel t.to_state = some (t.to_state :: ancTail))
    (hdown : entryDescend sd fuel t.to_state = some down)
    (henv : ∀ g, t.guard = some g → env g = true) :
    makePostEventStateSwitchCaseCode sd (pre.length + (fuel + 1)) ev S = some code ∧
    ∃ body, outTransCode sd fuel S lst t = some body ∧
      body ∈ transBlockBodies code ∧
      bEntryCalls body =
        ((t.to_state :: ancTail.takeWhile (fun x => x ≠ L)).reverse ++ down) ∧
      IsInitialDescent sd t.to_state down ∧
      bAssigns body =
        [((t.to_state :: ancTail.takeWhile (fun x => x ≠ L)).reverse ++ down).getLastD
          t.to_state] ∧
      runB env body =
        ((pre ++ [L] ++ parentOpt lst).map Ev.exit ++ t.actions.map Ev.act ++
          ((t.to_state :: ancTail.takeWhile (fun x => x ≠ L)).reverse ++ down).map Ev.entry ++
          [Ev.set (((t.to_state :: ancTail.takeWhile (fun x => x ≠ L)).reverse ++
            down).getLastD t.to_state)], true) := by
  have hskip := bubbleGo_skip sd ev S L pre (fuel + 1) hpre hchain
  rw [hhead, Option.some_bind, hS] at hskip
  have hw : exitWalk sd lst.name fuel S.name = some (pre ++ [L]) := by
    rw [hname]
    exact exitWalk_chain sd L pre fuel S.name hlen hLpre hchain hhead
  have hup : entryUp sd lst.name fuel t.to_state =
      some ((t.to_state :: ancTail.takeWhile (fun x => x ≠ L)).reverse) := by
    rw [hname]
    exact entryUp_of_ancestors sd L fuel t.to_state ancTail hanc
  have hbody := outTransCode_eq sd fuel S lst t (pre ++ [L]) _ down hw hup hdown
  constructor
  · rw [makePostEventStateSwitchCaseCode, hskip, hL, bubbleGo]
    rw [if_pos (by rw [hint]; rfl)]
    rw [if_neg (by simpa [List.isEmpty_iff] using hout)]
    exact hbranch
  · refine ⟨_, hbody, outBranchCode_mem sd fuel S lst _ code t _ hbranch ht hbody,
      ?_, entryDescend_isInitialDescent sd hkeys hcheck fuel t.to_state down hdown,
      ?_, ?_⟩
    · exact bEntryCalls_block _ _ _ _
    · exact bAssigns_block _ _ _ _
    · rw [List.append_assoc, List.append_assoc]
      rw [runB_exitCalls_append, runB_actionBlocks_append, runB_entryCalls_append]
      rw [show runB env [BStmt.assign (((t.to_state ::
          ancTail.takeWhile (fun x => x ≠ L)).reverse ++ down).getLastD t.to_state),
          BStmt.brk] = ([Ev.set (((t.to_state :: ancTail.takeWhile
          (fun x => x ≠ L)).reverse ++ down).getLastD t.to_state)], true) from rfl]
      rw [runActionBlock_of_env env t henv]
      simp [List.append_assoc]

/-- Witness for C2: the `go` transition fired from `A` at level `P` enters `Q`,
    then descends `C`, `E`; actions run between exits and entries; new state `E`. -/
theorem C2_witness :
    makePostEventStateSwitchCaseCode WitnessDict (List.length ["A"] + (5 + 1)) "go" wA =
      some wGoCode ∧
    ∃ body, outTransCode WitnessDict 5 wA wP ⟨"go", none, "P", "Q", ["gAct()"]⟩ = some body ∧
      body ∈ transBlockBodies wGoCode ∧
      bEntryCalls body = (("Q" :: List.takeWhile (fun x => x ≠ "P") []).reverse ++ ["C", "E"]) ∧
      IsInitialDescent WitnessDict "Q" ["C", "E"] ∧
      bAssigns body = [(("Q" :: List.takeWhile (fun x => x ≠ "P") []).reverse ++
        ["C", "E"]).getLastD "Q"] ∧
      runB (fun _ => true) body =
        ((["A"] ++ ["P"] ++ parentOpt wP).map Ev.exit ++ ["gAct()"].map Ev.act ++
          (("Q" :: List.takeWhile (fun x => x ≠ "P") []).reverse ++ ["C", "E"]).map Ev.entry ++
          [Ev.set ((("Q" :: List.takeWhile (fun x => x ≠ "P") []).reverse ++
            ["C", "E"]).getLastD "Q")], true) :=
  C2_entry_chain WitnessDict "go" ["A"] "P" wA wP 5 wGoCode
    ⟨"go", none, "P", "Q", ["gAct()"]⟩ [] ["C", "E"] (fun _ => true)
    (List.Chain'.cons rfl (List.chain'_singleton _)) rfl rfl
    (fun n hn => by
      rw [List.mem_singleton] at hn
      subst hn
      exact ⟨wA, rfl, rfl, rfl⟩)
    (by decide) (by decide) rfl rfl rfl (by decide) rfl
    (by show ∀ p ∈ WitnessDict, (p.2 : FsmState).name = p.1; decide) rfl
    (by decide) rfl rfl (fun g hg => nomatch hg)

/- ===== C7: internal transitions ===== -/

/-- C7: whenever the bubbling search resolves a (state, event) pair to internal
    transitions (a level `L` with a matching internal transition is reached with
    no matching transition at any level below it), the emitted dispatch case
    assigns no new active state and contains no entry-action or exit-action call. -/
theorem C7_internal_resolution (sd : StateDict) (ev : String) (pre : List String)
    (L : String) (S lst : FsmState) (fuel : Nat)
    (hchain : List.Chain' (parentLink sd) (pre ++ [L]))
    (hhead : (pre ++ [L]).head? = some S.name)
    (hS : lookupState sd S.name = some S)
    (hpre : ∀ n ∈ pre, levelNoMatch sd ev n)
    (hL : lookupState sd L = some lst)
    (hint : lst.int_transitions.filter (fun t => t.event == ev) ≠ []) :
    ∃ code, makePostEventStateSwitchCaseCode sd (pre.length + (fuel + 1)) ev S = some code ∧
      cExitCalls code = [] ∧ cEntryCalls code = [] ∧ cAssigns code = [] := by
  have hskip := bubbleGo_skip sd ev S L pre (fuel + 1) hpre hchain
  rw [hhead, Option.some_bind, hS] at hskip
  rw [makePostEventStateSwitchCaseCode, hskip, hL, bubbleGo]
  have hcond : ¬ ((lst.int_transitions.filter (fun t => t.event == ev)).isEmpty = true) := by
    simpa [List.isEmpty_iff] using hint
  rw [if_neg hcond]
  refine ⟨_, rfl, ?_, ?_, ?_⟩ <;>
    simp [cExitCalls, cEntryCalls, cAssigns, transBlockBodies_actionBlocks]

/-- Witness for C7: posting `ping` in state `B` of the witness model resolves to
    `B`'s internal transitions and the emitted case has no exit/entry/assign. -/
theorem C7_witness :
    ∃ code, makePostEventStateSwitchCaseCode WitnessDict (List.length ([] : List String) + (2 + 1))
        "ping" wB = some code ∧
      cExitCalls code = [] ∧ cEntryCalls code = [] ∧ cAssigns code = [] :=
  C7_internal_resolution WitnessDict "ping" [] "B" wB wB 2
    (List.chain'_singleton _) rfl rfl (fun n h => absurd h (List.not_mem_nil n)) rfl
    (by decide)

/- ===== C3: several matching internal transitions ===== -/

lemma runC_actionBlocks (env : String → Bool) (l : List (Option String × List String)) :
    runC env (l.map (fun p => CStmt.actionBlock p.1 p.2)) =
      ((l.map (fun p => runActionBlock env p.1 p.2)).flatten, false) := by
  induction l with
  | nil => rfl
  | cons p rest ih => simp [runC, ih]

/-- C3, counterexample: state `B` has two unguarded internal transitions on
    `ping`; the generated case runs the actions of both in one dispatch, so the
    first entry does not win and the second entry is reachable after the first
    unguarded one fires. -/
theorem C3_counterexample :
    makePostEventStateSwitchCaseCode WitnessDict 5 "ping" wB =
      some [CStmt.commentInt "ping", CStmt.actionBlock none ["p1()"],
            CStmt.actionBlock none ["p2()"]] ∧
    (runC (fun _ => false)
        [CStmt.commentInt "ping", CStmt.actionBlock none ["p1()"],
         CStmt.actionBlock none ["p2()"]]).1 = [Ev.act "p1()", Ev.act "p2()"] :=
  ⟨rfl, rfl⟩

/-- C3, amended: for a level with several internal transitions matching the
    dispatched event, the generated code runs, in declaration order, the actions
    of every entry whose guard holds (unguarded entries always run); earlier
    entries do not disable later ones, and no `break` is emitted. -/
theorem C3_internal_all_satisfied (sd : StateDict) (ev : String) (pre : List String)
    (L : String) (S lst : FsmState) (fuel : Nat) (env : String → Bool)
    (hchain : List.Chain' (parentLink sd) (pre ++ [L]))
    (hhead : (pre ++ [L]).head? = some S.name)
    (hS : lookupState sd S.name = some S)
    (hpre : ∀ n ∈ pre, levelNoMatch sd ev n)
    (hL : lookupState sd L = some lst)
    (hint : lst.int_transitions.filter (fun t => t.event == ev) ≠ []) :
    ∃ code, makePostEventStateSwitchCaseCode sd (pre.length + (fuel + 1)) ev S = some code ∧
      runC env code =
        (((makeTransitionsActionCode (lst.int_transitions.filter (fun t => t.event == ev))).map
            (fun p => runActionBlock env p.1 p.2)).flatten, false) := by
  have hskip := bubbleGo_skip sd ev S L pre (fuel + 1) hpre hchain
  rw [hhead, Option.some_bind, hS] at hskip
  rw [makePostEventStateSwitchCaseCode, hskip, hL, bubbleGo]
  have hcond : ¬ ((lst.int_transitions.filter (fun t => t.event == ev)).isEmpty = true) := by
    simpa [List.isEmpty_iff] using hint
  rw [if_neg hcond]
  refine ⟨_, rfl, ?_⟩
  rw [runC]
  exact runC_actionBlocks env _

/-- Witness for C3 (amended): in state `B` on `ping`, both unguarded internal
    action blocks run, in declaration order. -/
theorem C3_witness :
    ∃ code, makePostEventStateSwitchCaseCode WitnessDict (List.length ([] : List String) + (2 + 1))
        "ping" wB = some code ∧
      runC (fun _ => true) code =
        (((makeTransitionsActionCode (wB.int_transitions.filter (fun t => t.event == "ping"))).map
            (fun p => runActionBlock (fun _ => true) p.1 p.2)).flatten, false) :=
  C3_internal_all_satisfied WitnessDict "ping" [] "B" wB wB 2 (fun _ => true)
    (List.chain'_singleton _) rfl rfl (fun n h => absurd h (List.not_mem_nil n)) rfl
    (by decide)

/- ===== C8: declaration-order guard precedence ===== -/

lemma runB_append (env : String → Bool) (xs ys : List BStmt) :
    runB env (xs ++ ys) =
      if (runB env xs).2 then runB env xs
      else ((runB env xs).1 ++ (runB env ys).1, (runB env ys).2) := by
  induction xs with
  | nil => simp [runB]
  | cons s tl ih =>
    cases s <;> simp [runB, ih] <;> by_cases hb : (runB env tl).2 <;> simp [hb]

lemma outTransCode_breaks (sd : StateDict) (fuel : Nat) (S lst : FsmState)
    (t : Transition) (body : List BStmt) (env : String → Bool)
    (h : outTransCode sd fuel S lst t = some body) : (runB env body).2 = true := by
  rw [outTransCode] at h
  simp only [bind, Option.bind_eq_some] at h
  obtain ⟨w, hw, up, hup, down, hdown, hsome⟩ := h
  rw [Option.some.injEq] at hsome
  subst hsome
  rw [List.append_assoc, List.append_assoc]
  rw [runB_exitCalls_append, runB_actionBlocks_append, runB_entryCalls_append]
  rfl

lemma outBranchCode_nil (sd : StateDict) (fuel : Nat) (S lst : FsmState) :
    outBranchCode sd fuel S lst [] = some [] := rfl

lemma outBranchCode_cons (sd : StateDict) (fuel : Nat) (S lst : FsmState)
    (t : Transition) (ts : List Transition) (code : List CStmt)
    (h : outBranchCode sd fuel S lst (t :: ts) = some code) :
    ∃ body restcode, outTransCode sd fuel S lst t = some body ∧
      outBranchCode sd fuel S lst ts = some restcode ∧
      code = [CStmt.commentTrans t, CStmt.transBlock t.guard body] ++ restcode := by
  rw [outBranchCode, List.mapM_cons] at h
  rw [Option.map_eq_some'] at h
  obtain ⟨v, hv, hflat⟩ := h
  simp only [bind, Option.bind_eq_some] at hv
  obtain ⟨b, hb, bs, hbs, hv2⟩ := hv
  simp only [Option.pure_def, Option.some.injEq] at hv2
  subst hv2
  rw [outTransBlock, Option.map_eq_some'] at hb
  obtain ⟨body0, hoc, hb2⟩ := hb
  subst hb2
  refine ⟨body0, bs.flatten, hoc, ?_, ?_⟩
  · rw [outBranchCode, hbs]
    rfl
  · rw [← hflat, List.flatten_cons]

lemma runC_stop_after_unguarded (sd : StateDict) (fuel : Nat) (S lst : FsmState)
    (env : String → Bool) :
    ∀ (pre2 : List Transition) (t1 : Transition) (rest : List Transition)
      (code code2 : List CStmt),
      t1.guard = none →
      outBranchCode sd fuel S lst (pre2 ++ t1 :: rest) = some code →
      outBranchCode sd fuel S lst (pre2 ++ [t1]) = some code2 →
      runC env code = runC env code2 := by
  intro pre2
  induction pre2 with
  | nil =>
    intro t1 rest code code2 hg hcode hcode2
    obtain ⟨body, restcode, hbody, _, rfl⟩ := outBranchCode_cons sd fuel S lst _ _ _ hcode
    obtain ⟨body2, restcode2, hbody2, hrc2, rfl⟩ := outBranchCode_cons sd fuel S lst _ _ _ hcode2
    rw [hbody] at hbody2
    rw [Option.some.injEq] at hbody2
    subst hbody2
    rw [outBranchCode_nil] at hrc2
    rw [Option.some.injEq] at hrc2
    subst hrc2
    rw [hg]
    have hbrk := outTransCode_breaks sd fuel S lst t1 body env hbody
    simp [runC, hbrk]
  | cons t0 pre2' ih =>
    intro t1 rest code code2 hg hcode hcode2
    obtain ⟨body, restcode, hbody, hrc, rfl⟩ := outBranchCode_cons sd fuel S lst _ _ _ hcode
    obtain ⟨body2, restcode2, hbody2, hrc2, rfl⟩ := outBranchCode_cons sd fuel S lst _ _ _ hcode2
    rw [hbody] at hbody2
    rw [Option.some.injEq] at hbody2
    subst hbody2
    have hbrk := outTransCode_breaks sd fuel S lst t0 body env hbody
    have htail := ih t1 rest restcode restcode2 hg hrc hrc2
    by_cases hfire : (match t0.guard with | none => true | some gc => env gc) = true
    · simp [runC, hfire, hbrk]
    · simp [runC, hfire, hbrk, htail]

/-- C8: when a state has an unguarded outgoing transition declared before a
    guarded one on the same event, running the generated dispatch case is
    indistinguishable from running it with everything after the unguarded
    candidate removed: the guarded transition's block is dead code under every
    guard valuation. -/
theorem C8_unguarded_shadows_guarded (sd : StateDict) (ev : String) (S : FsmState)
    (fuel : Nat) (pre2 rest : List Transition) (t1 t2 : Transition)
    (code code2 : List CStmt)
    (hint : S.int_transitions.filter (fun x => x.event == ev) = [])
    (hout : S.out_transitions.filter (fun x => x.event == ev) = pre2 ++ t1 :: rest)
    (hg1 : t1.guard = none)
    (ht2 : t2 ∈ rest) (hg2 : t2.guard.isSome = true)
    (hbranch : outBranchCode sd fuel S S (pre2 ++ t1 :: rest) = some code)
    (hbranch2 : outBranchCode sd fuel S S (pre2 ++ [t1]) = some code2) :
    makePostEventStateSwitchCaseCode sd (fuel + 1) ev S = some code ∧
    ∀ env, runC env code = runC env code2 := by
  constructor
  · rw [makePostEventStateSwitchCaseCode, bubbleGo]
    rw [if_pos (by rw [hint]; rfl)]
    rw [hout]
    rw [if_neg (by simp [List.isEmpty_iff])]
    exact hbranch
  · intro env
    exact runC_stop_after_unguarded sd fuel S S env pre2 t1 rest code code2 hg1
      hbranch hbranch2

/-- Witness for C8: in state `A` on `dup`, the unguarded first candidate makes
    the guarded second block unreachable. -/
theorem C8_witness :
    makePostEventStateSwitchCaseCode WitnessDict (5 + 1) "dup" wA = some wDupCode ∧
    ∀ env, runC env wDupCode = runC env wDupCode1 :=
  C8_unguarded_shadows_guarded WitnessDict "dup" wA 5 [] [wDupT2] wDupT1 wDupT2
    wDupCode wDupCode1 rfl rfl rfl (by decide) rfl rfl rfl

/- ===== C10: the generated init() ===== -/

lemma lookup_of_mem_nodup {sd : StateDict} {k : String} {v : FsmState}
    (hnodup : (sd.map Prod.fst).Nodup) (hmem : (k, v) ∈ sd) :
    sd.lookup k = some v := by
  induction sd with
  | nil => exact absurd hmem (List.not_mem_nil _)
  | cons p rest ih =>
    rw [List.map_cons, List.nodup_cons] at hnodup
    rcases List.mem_cons.mp hmem with rfl | hmem2
    · exact List.lookup_cons_self
    · have hne : (k == p.1) = false := by
        rw [beq_eq_false_iff_ne]
        intro hkp
        refine hnodup.1 ?_
        rw [List.mem_map]
        exact ⟨(k, v), hmem2, hkp⟩
      rw [List.lookup_cons, hne]
      exact ih hnodup.2 hmem2

lemma climb_mono (sd : StateDict) :
    ∀ (f f2 : Nat) (c : String) (l : List String), f ≤ f2 →
      makeInitStateEntryCode sd f c = some l →
      makeInitStateEntryCode sd f2 c = some l := by
  intro f
  induction f with
  | zero =>
    intro f2 c l _ h
    rw [makeInitStateEntryCode] at h
    exact absurd h (by simp)
  | succ f ih =>
    intro f2 c l hle h
    cases f2 with
    | zero => omega
    | succ f2 =>
      cases hlook : lookupState sd c with
      | none =>
        simp only [makeInitStateEntryCode, hlook] at h
        exact Option.noConfusion h
      | some st =>
        cases hp : st.parent_state with
        | none =>
          simp only [makeInitStateEntryCode, hlook, hp] at h ⊢
          exact h
        | some p =>
          simp only [makeInitStateEntryCode, hlook, hp, Option.map_eq_some'] at h ⊢
          obtain ⟨pc, hpc, rfl⟩ := h
          exact ⟨pc, ih f2 p pc (by omega) hpc, rfl⟩

lemma descendLoop_chain (sd : StateDict) (hkeys : KeyNameCoherent sd)
    (hpc : ParentChildCoherent sd) (hcheck : check_states sd = .ok ()) :
    ∀ (fuel : Nat) (c leaf : String), descendLoop sd fuel c = some leaf →
      ∃ tail, IsInitialDescent sd c tail ∧
        leaf = (c :: tail).getLastD c ∧ tail.length < fuel ∧
        ∀ (f2 : Nat) (pc0 : List String),
          makeInitStateEntryCode sd f2 c = some pc0 →
          makeInitStateEntryCode sd (f2 + tail.length) leaf = some (pc0 ++ tail) := by
  intro fuel
  induction fuel with
  | zero => intro c leaf h; rw [descendLoop] at h; exact absurd h (by simp)
  | succ f ih =>
    intro c leaf h
    rw [descendLoop] at h
    simp only [bind, Option.bind_eq_some] at h
    obtain ⟨st, hlook, hrest⟩ := h
    by_cases hch : st.child_states.isEmpty
    · rw [if_pos hch] at hrest
      have hlc : leaf = c := by simpa using hrest.symm
      subst hlc
      refine ⟨[], ⟨st, hlook, List.isEmpty_iff.mp hch⟩, by simp, by simp, ?_⟩
      intro f2 pc0 hpc0
      simpa using hpc0
    · rw [if_neg hch] at hrest
      simp only [bind, Option.bind_eq_some] at hrest
      obtain ⟨c2, hc2, hdesc⟩ := hrest
      have hne : st.child_states ≠ [] := by simpa [List.isEmpty_iff] using hch
      have hmem : st ∈ sd.map Prod.snd := by
        rw [List.mem_map]
        exact ⟨(c, st), lookup_mem hlook, rfl⟩
      obtain ⟨c', hnames⟩ := (check_states_ok sd hcheck).2 st hmem hne
      have hfirst := firstInitialChild_of_names sd hkeys st c' hnames
      rw [hc2] at hfirst
      have hcc : c2 = c' := by simpa using hfirst
      subst hcc
      have hc2mem : c2 ∈ st.child_states := List.mem_of_find?_eq_some hc2
      have hpred := List.find?_some hc2
      obtain ⟨cst2, hlook2⟩ : ∃ cst2, lookupState sd c2 = some cst2 := by
        cases hl : lookupState sd c2 with
        | none => rw [hl] at hpred; simp at hpred
        | some cst2 => exact ⟨cst2, rfl⟩
      have hpar2 : cst2.parent_state = some c := by
        have hcoh := hpc (c, st) (lookup_mem hlook) c2 hc2mem
        rw [hlook2] at hcoh
        simpa using hcoh
      obtain ⟨tail2, hdes2, hleaf2, hlen2, hclimb2⟩ := ih c2 leaf hdesc
      refine ⟨c2 :: tail2, ⟨st, hlook, hne, hnames, hdes2⟩, ?_, by simp; omega, ?_⟩
      · rw [List.getLastD_cons] at hleaf2
        rw [List.getLastD_cons, List.getLastD_cons]
        exact hleaf2
      · intro f2 pc0 hpc0
        have hstep : makeInitStateEntryCode sd (f2 + 1) c2 = some (pc0 ++ [c2]) := by
          simp only [makeInitStateEntryCode, hlook2, hpar2, hpc0]
          rfl
        have hfin := hclimb2 (f2 + 1) (pc0 ++ [c2]) hstep
        have harith : f2 + 1 + tail2.length = f2 + (c2 :: tail2).length := by
          simp [List.length_cons]
          omega
        rw [harith] at hfin
        simpa using hfin

/-- C10: for every validated model, the emitted `init()` calls entry actions for
    exactly the chain from the unique top-level initial state down through the
    designated initial children to the initial leaf, in ancestor-to-leaf order,
    and returns that leaf as the initial active state. -/
theorem C10_init_chain (sd : StateDict) (fuel : Nat) (hdr : Header)
    (hkeys : KeyNameCoherent sd) (hnodup : (sd.map Prod.fst).Nodup)
    (hpc : ParentChildCoherent sd) (hcheck : check_states sd = .ok ())
    (hgen : generate_fsm_header sd fuel = some hdr) :
    ∃ top tail, findTopInitial sd = some top ∧
      IsInitialDescent sd top tail ∧
      hdr.initEntryCalls = top :: tail ∧
      hdr.initReturnState = (top :: tail).getLastD top ∧
      ∀ st ∈ sd.map Prod.snd, st.parent_state = none → st.is_initial_state = true →
        st.name = top := by
  rw [generate_fsm_header] at hgen
  simp only [bind, Option.bind_eq_some] at hgen
  obtain ⟨top0, htop, leaf, hleaf, ic, hic, disp, hdisp, hpure⟩ := hgen
  cases hpure
  have htop2 := htop
  rw [findTopInitial, Option.map_eq_some'] at htop2
  obtain ⟨st0, hhd, hst0name⟩ := htop2
  have hst0filter := List.mem_of_mem_head? (by rw [hhd]; rfl)
  rw [List.mem_filter] at hst0filter
  obtain ⟨hst0mem, hst0pred⟩ := hst0filter
  have hst0par : st0.parent_state = none := by
    have := (Bool.and_eq_true _ _).mp hst0pred
    simpa [Option.isNone_iff_eq_none] using this.1
  have hst0ini : st0.is_initial_state = true :=
    ((Bool.and_eq_true _ _).mp hst0pred).2
  obtain ⟨k0, hk0mem, hk0eq⟩ := List.mem_map.mp hst0mem
  have hk0name : k0.1 = st0.name := by
    rw [← hk0eq]
    exact (hkeys k0 hk0mem).symm
  have hlookTop : lookupState sd top0 = some st0 := by
    have hmemk : (k0.1, k0.2) ∈ sd := by simpa using hk0mem
    have hl := lookup_of_mem_nodup hnodup hmemk
    rw [lookupState, show top0 = k0.1 from (hk0name.trans hst0name).symm, hl, hk0eq]
  obtain ⟨tail, hdescent, hleafeq, hlen, hclimb⟩ :=
    descendLoop_chain sd hkeys hpc hcheck fuel top0 leaf hleaf
  have hbase : makeInitStateEntryCode sd 1 top0 = some [top0] := by
    simp only [makeInitStateEntryCode, hlookTop, hst0par]
  have hclimb2 := hclimb 1 [top0] hbase
  have hclimbFuel : makeInitStateEntryCode sd fuel leaf = some ([top0] ++ tail) :=
    climb_mono sd (1 + tail.length) fuel leaf ([top0] ++ tail) (by omega) hclimb2
  have hiceq : ic = top0 :: tail := by
    rw [hclimbFuel] at hic
    simpa using hic.symm
  obtain ⟨r, hroots⟩ := (check_states_ok sd hcheck).1
  have hrootmem : ∀ st ∈ sd.map Prod.snd, st.parent_state = none →
      st.is_initial_state = true → st.name ∈ initialRootNames sd := by
    intro st hst hp hi
    rw [initialRootNames]
    exact List.mem_map_of_mem _ (List.mem_filter.mpr ⟨hst, by simp [hp, hi]⟩)
  have htopr : top0 = r := by
    have := hrootmem st0 hst0mem hst0par hst0ini
    rw [hroots, hst0name] at this
    simpa using this
  refine ⟨top0, tail, htop, hdescent, ?_, ?_, ?_⟩
  · simpa using hiceq
  · simpa using hleafeq
  · intro st hst hp hi
    have := hrootmem st hst hp hi
    rw [hroots] at this
    rw [List.mem_singleton] at this
    rw [this, htopr]

/-- Witness for C10: in the witness model, `init()` enters `P` then `A` and
    returns `A`. -/
theorem C10_witness :
    ∃ top tail, findTopInitial WitnessDict = some top ∧
      IsInitialDescent WitnessDict top tail ∧
      ((generate_fsm_header WitnessDict 10).getD ⟨[], [], [], "", []⟩).initEntryCalls =
        top :: tail ∧
      ((generate_fsm_header WitnessDict 10).getD ⟨[], [], [], "", []⟩).initReturnState =
        (top :: tail).getLastD top ∧
      ∀ st ∈ WitnessDict.map Prod.snd, st.parent_state = none →
        st.is_initial_state = true → st.name = top :=
  C10_init_chain WitnessDict 10 ((generate_fsm_header WitnessDict 10).getD ⟨[], [], [], "", []⟩)
    (by show ∀ p ∈ WitnessDict, (p.2 : FsmState).name = p.1; decide)
    (by decide)
    (by show ∀ p ∈ WitnessDict, ∀ c ∈ (p.2 : FsmState).child_states,
          ((lookupState WitnessDict c).map (·.parent_state)).getD (some p.1) = some p.1
        decide)
    rfl (by decide)

end Puml
